import Mathlib

/-!
Verification of the emojiCrush match-3 engine.

This file shallowly embeds the simulation core of the repository:
`GameBoard` (src/js/board.js), `MatchDetector` (src/js/main.js, second
half) and the swap/undo portions of `EmojiCrushGame`
(src/unnamed/part_001).  Tile values are modelled by the inductive type
`Emoji`; a grid cell is `Option Emoji`, with `none` standing for the
JavaScript `null` used for empty cells.  JavaScript numbers appearing in
the engine are all non-negative integers, so they are modelled by `Nat`.
Bounded JS loops are translated either structurally or with an explicit
fuel argument that is always large enough to cover the loop's range
(noted at each definition), so that every definition is executable.
-/

/-- A tile value: one of the ten basic emoji kinds of `GameBoard.emojis`
(identified by their index in that array), or one of the three special
emojis of `GameBoard.specialEmojis`. -/
inductive Emoji where
  | basic (k : Nat)
  | striped
  | bomb
  | rainbow
deriving DecidableEq, Repr

/-- Mirrors `GameBoard.isSpecialEmoji`: true exactly on the three
special emoji values. -/
def Emoji.isSpecial : Emoji → Bool
  | .basic _ => false
  | _ => true

/-- A board position `{row, col}`, 0-indexed. -/
structure Pos where
  row : Nat
  col : Nat
deriving DecidableEq, Repr

/-- The board of `GameBoard`: `size` and the `grid` array of rows, each
cell holding a tile value or `none` (JS `null`). -/
structure GameBoard where
  size : Nat
  grid : List (List (Option Emoji))
deriving DecidableEq, Repr

/-- A board representing an actual `GameBoard` state: the grid is a
`size × size` array. -/
def WellFormed (b : GameBoard) : Prop :=
  b.grid.length = b.size ∧ ∀ r ∈ b.grid, r.length = b.size

instance (b : GameBoard) : Decidable (WellFormed b) := by
  unfold WellFormed; infer_instance

/-- Raw array access `this.grid[row][col]` (no bounds check); out of
range it yields `none`, like the guarded accesses in the JS loops that
only ever read in range. -/
def cellAt (b : GameBoard) (row col : Nat) : Option Emoji :=
  (b.grid.getD row []).getD col none

/-- Mirrors `GameBoard.getEmoji`: `null` when out of bounds, otherwise
the cell value (which may itself be `null`). -/
def getEmoji (b : GameBoard) (row col : Nat) : Option Emoji :=
  if row < b.size ∧ col < b.size then cellAt b row col else none

/-- Mirrors `GameBoard.isValidPosition`. -/
def isValidPosition (b : GameBoard) (row col : Nat) : Bool :=
  decide (row < b.size) && decide (col < b.size)

/-- The raw assignment `this.grid[row][col] = v`. -/
def setCellRaw (b : GameBoard) (row col : Nat) (v : Option Emoji) : GameBoard :=
  { b with grid := b.grid.set row ((b.grid.getD row []).set col v) }

/-- Mirrors `GameBoard.swapEmojis`: fails (returning the board unchanged
and `false`) if either position is invalid, otherwise exchanges the two
cells through a temporary, exactly as the JS assignments do, and returns
`true`. -/
def swapEmojis (b : GameBoard) (p1 p2 : Pos) : GameBoard × Bool :=
  if isValidPosition b p1.row p1.col && isValidPosition b p2.row p2.col then
    let temp := cellAt b p1.row p1.col
    let b1 := setCellRaw b p1.row p1.col (cellAt b p2.row p2.col)
    let b2 := setCellRaw b1 p2.row p2.col temp
    (b2, true)
  else (b, false)

/-- Mirrors `GameBoard.areAdjacent`: Manhattan distance exactly 1. -/
def areAdjacent (p1 p2 : Pos) : Bool :=
  (decide ((p1.row : Int) - p2.row = 1 ∨ (p2.row : Int) - p1.row = 1) &&
    decide (p1.col = p2.col)) ||
  (decide (p1.row = p2.row) &&
    decide ((p1.col : Int) - p2.col = 1 ∨ (p2.col : Int) - p1.col = 1))

section ListLemmas

variable {α : Type _}

theorem getD_set_self (l : List α) (i : Nat) (v d : α) (h : i < l.length) :
    (l.set i v).getD i d = v := by
  induction l generalizing i with
  | nil => simp at h
  | cons a t ih =>
    cases i with
    | zero => simp [List.set, List.getD]
    | succ n =>
      simp only [List.set, List.getD_cons_succ]
      exact ih n (by simpa using h)

theorem getD_set_ne (l : List α) (i j : Nat) (v d : α) (h : i ≠ j) :
    (l.set i v).getD j d = l.getD j d := by
  induction l generalizing i j with
  | nil => simp [List.set]
  | cons a t ih =>
    cases i with
    | zero =>
      cases j with
      | zero => exact absurd rfl h
      | succ m => simp [List.set, List.getD_cons_succ]
    | succ n =>
      cases j with
      | zero => simp [List.set, List.getD]
      | succ m =>
        simp only [List.set, List.getD_cons_succ]
        exact ih n m (fun hnm => h (by rw [hnm]))

theorem length_set_eq (l : List α) (i : Nat) (v : α) :
    (l.set i v).length = l.length := by
  simp

end ListLemmas

theorem getD_mem_of_lt {α : Type _} (l : List α) (i : Nat) (d : α) (h : i < l.length) :
    l.getD i d ∈ l := by
  rw [List.getD_eq_getElem _ _ h]
  exact List.getElem_mem h

theorem wellFormed_setCellRaw (b : GameBoard) (row col : Nat) (v : Option Emoji)
    (hw : WellFormed b) : WellFormed (setCellRaw b row col v) := by
  obtain ⟨hlen, hrows⟩ := hw
  by_cases hrow : row < b.grid.length
  · refine ⟨by simpa [setCellRaw] using hlen, ?_⟩
    intro r hr
    simp only [setCellRaw] at hr
    rcases List.mem_or_eq_of_mem_set hr with h | h
    · exact hrows r h
    · subst h
      rw [length_set_eq]
      exact hrows _ (getD_mem_of_lt _ _ _ hrow)
  · have : (setCellRaw b row col v) = b := by
      simp only [setCellRaw]
      rw [List.set_eq_of_length_le (Nat.le_of_not_lt hrow)]
    rw [this]
    exact ⟨hlen, hrows⟩

theorem size_setCellRaw (b : GameBoard) (row col : Nat) (v : Option Emoji) :
    (setCellRaw b row col v).size = b.size := rfl

theorem cellAt_setCellRaw_self (b : GameBoard) (row col : Nat) (v : Option Emoji)
    (hw : WellFormed b) (hr : row < b.size) (hc : col < b.size) :
    cellAt (setCellRaw b row col v) row col = v := by
  obtain ⟨hlen, hrows⟩ := hw
  have hrl : row < b.grid.length := by omega
  have hcl : col < (b.grid.getD row []).length := by
    rw [hrows _ (getD_mem_of_lt _ _ _ hrl)]; exact hc
  simp only [cellAt, setCellRaw]
  rw [getD_set_self _ _ _ _ hrl, getD_set_self _ _ _ _ hcl]

theorem cellAt_setCellRaw_ne (b : GameBoard) (row col : Nat) (v : Option Emoji)
    (r c : Nat) (h : ¬(r = row ∧ c = col)) :
    cellAt (setCellRaw b row col v) r c = cellAt b r c := by
  by_cases hr : r = row
  · subst hr
    have hc : c ≠ col := fun hc => h ⟨rfl, hc⟩
    simp only [cellAt, setCellRaw]
    by_cases hrl : r < b.grid.length
    · rw [getD_set_self _ _ _ _ hrl, getD_set_ne _ _ _ _ _ (fun hh => hc hh.symm)]

    · rw [List.set_eq_of_length_le (Nat.le_of_not_lt hrl)]
  · simp only [cellAt, setCellRaw]
    rw [getD_set_ne _ _ _ _ _ (fun hh => hr hh.symm)]

/-- Two well-formed boards of the same size with the same cells are equal. -/
theorem board_ext (b b' : GameBoard) (hw : WellFormed b) (hw' : WellFormed b')
    (hs : b.size = b'.size) (h : ∀ r c, cellAt b r c = cellAt b' r c) : b = b' := by
  obtain ⟨hlen, hrows⟩ := hw
  obtain ⟨hlen', hrows'⟩ := hw'
  cases b with
  | mk size grid =>
    cases b' with
    | mk size' grid' =>
      simp only at hs hlen hlen' hrows hrows' h ⊢
      subst hs
      refine congrArg (GameBoard.mk size) ?_
      apply List.ext_getElem (by omega)
      intro r hr hr'
      apply List.ext_getElem
      · rw [hrows _ (List.getElem_mem hr), hrows' _ (List.getElem_mem hr')]
      · intro c hc hc'
        have hcell := h r c
        simp only [cellAt] at hcell
        rw [List.getD_eq_getElem _ _ hr, List.getD_eq_getElem _ _ hr'] at hcell
        rw [List.getD_eq_getElem _ _ hc, List.getD_eq_getElem _ _ hc'] at hcell
        exact hcell

theorem size_swapEmojis (b : GameBoard) (p1 p2 : Pos) :
    (swapEmojis b p1 p2).1.size = b.size := by
  unfold swapEmojis
  split <;> rfl

theorem wellFormed_swapEmojis (b : GameBoard) (p1 p2 : Pos) (hw : WellFormed b) :
    WellFormed (swapEmojis b p1 p2).1 := by
  unfold swapEmojis
  split
  · exact wellFormed_setCellRaw _ _ _ _ (wellFormed_setCellRaw _ _ _ _ hw)
  · exact hw

/-- Cell-level description of a successful swap. -/
theorem cellAt_swapEmojis (b : GameBoard) (p1 p2 : Pos) (hw : WellFormed b)
    (h1 : p1.row < b.size ∧ p1.col < b.size) (h2 : p2.row < b.size ∧ p2.col < b.size)
    (r c : Nat) :
    cellAt (swapEmojis b p1 p2).1 r c =
      if r = p2.row ∧ c = p2.col then cellAt b p1.row p1.col
      else if r = p1.row ∧ c = p1.col then cellAt b p2.row p2.col
      else cellAt b r c := by
  have hcond : (isValidPosition b p1.row p1.col && isValidPosition b p2.row p2.col) = true := by
    simp [isValidPosition, h1.1, h1.2, h2.1, h2.2]
  have hw1 : WellFormed (setCellRaw b p1.row p1.col (cellAt b p2.row p2.col)) :=
    wellFormed_setCellRaw _ _ _ _ hw
  simp only [swapEmojis, hcond, if_pos]
  by_cases hA : r = p2.row ∧ c = p2.col
  · obtain ⟨hr, hc⟩ := hA
    subst hr; subst hc
    rw [if_pos ⟨rfl, rfl⟩]
    exact cellAt_setCellRaw_self _ _ _ _ hw1 (by simpa using h2.1) (by simpa using h2.2)
  · rw [if_neg hA, cellAt_setCellRaw_ne _ _ _ _ _ _ hA]
    by_cases hB : r = p1.row ∧ c = p1.col
    · obtain ⟨hr, hc⟩ := hB
      subst hr; subst hc
      rw [if_pos ⟨rfl, rfl⟩]
      exact cellAt_setCellRaw_self _ _ _ _ hw h1.1 h1.2
    · rw [if_neg hB, cellAt_setCellRaw_ne _ _ _ _ _ _ hB]

/-- Swapping the same pair twice restores the board (used by the engine
for speculative checks); holds whether or not the positions are valid. -/
theorem swapEmojis_swapEmojis (b : GameBoard) (p1 p2 : Pos) (hw : WellFormed b) :
    (swapEmojis (swapEmojis b p1 p2).1 p1 p2).1 = b := by
  by_cases hv : (p1.row < b.size ∧ p1.col < b.size) ∧ p2.row < b.size ∧ p2.col < b.size
  · obtain ⟨h1, h2⟩ := hv
    have hw1 : WellFormed (swapEmojis b p1 p2).1 := wellFormed_swapEmojis _ _ _ hw
    have hs1 : (swapEmojis b p1 p2).1.size = b.size := size_swapEmojis _ _ _
    have h1' : p1.row < (swapEmojis b p1 p2).1.size ∧ p1.col < (swapEmojis b p1 p2).1.size := by
      rw [hs1]; exact h1
    have h2' : p2.row < (swapEmojis b p1 p2).1.size ∧ p2.col < (swapEmojis b p1 p2).1.size := by
      rw [hs1]; exact h2
    apply board_ext _ _ (wellFormed_swapEmojis _ _ _ hw1) hw (by rw [size_swapEmojis, hs1])
    intro r c
    rw [cellAt_swapEmojis _ _ _ hw1 h1' h2' r c]
    by_cases hA : r = p2.row ∧ c = p2.col
    · rw [if_pos hA, cellAt_swapEmojis _ _ _ hw h1 h2 p1.row p1.col]
      obtain ⟨hr, hc⟩ := hA
      subst hr; subst hc
      by_cases hP : p1.row = p2.row ∧ p1.col = p2.col
      · rw [if_pos hP, hP.1, hP.2]
      · rw [if_neg hP, if_pos ⟨rfl, rfl⟩]
    · rw [if_neg hA]
      by_cases hB : r = p1.row ∧ c = p1.col
      · rw [if_pos hB, cellAt_swapEmojis _ _ _ hw h1 h2 p2.row p2.col, if_pos ⟨rfl, rfl⟩]
        obtain ⟨hr, hc⟩ := hB
        subst hr; subst hc
        rfl
      · rw [if_neg hB, cellAt_swapEmojis _ _ _ hw h1 h2 r c, if_neg hA, if_neg hB]
  · have hcond : (isValidPosition b p1.row p1.col && isValidPosition b p2.row p2.col) = false := by
      simp only [isValidPosition, Bool.and_eq_false_iff, Bool.and_eq_false_iff,
        decide_eq_false_iff_not]
      by_cases hr1 : p1.row < b.size
      · by_cases hc1 : p1.col < b.size
        · by_cases hr2 : p2.row < b.size
          · right; right; exact fun hc2 => hv ⟨⟨hr1, hc1⟩, hr2, hc2⟩
          · right; left; exact hr2
        · left; right; exact hc1
      · left; left; exact hr1
    have hb1 : swapEmojis b p1 p2 = (b, false) := by
      simp only [swapEmojis, hcond]
      rfl
    rw [hb1, hb1]

/-- C6: `swapEmojis` returns `false` and leaves the grid unchanged when
either position is out of bounds; on valid positions it exchanges the
two cell values and returns `true` (all other cells untouched); and
swapping the same pair twice restores the original grid. -/
theorem claim_C6_swap_involutive (b : GameBoard) (hw : WellFormed b) (p1 p2 : Pos) :
    (¬((p1.row < b.size ∧ p1.col < b.size) ∧ p2.row < b.size ∧ p2.col < b.size) →
      swapEmojis b p1 p2 = (b, false)) ∧
    (((p1.row < b.size ∧ p1.col < b.size) ∧ p2.row < b.size ∧ p2.col < b.size) →
      (swapEmojis b p1 p2).2 = true ∧
      cellAt (swapEmojis b p1 p2).1 p1.row p1.col = cellAt b p2.row p2.col ∧
      cellAt (swapEmojis b p1 p2).1 p2.row p2.col = cellAt b p1.row p1.col ∧
      ∀ r c, ¬(r = p1.row ∧ c = p1.col) → ¬(r = p2.row ∧ c = p2.col) →
        cellAt (swapEmojis b p1 p2).1 r c = cellAt b r c) ∧
    (swapEmojis (swapEmojis b p1 p2).1 p1 p2).1 = b := by
  refine ⟨?_, ?_, swapEmojis_swapEmojis b p1 p2 hw⟩
  · intro hv
    have hcond : (isValidPosition b p1.row p1.col && isValidPosition b p2.row p2.col) = false := by
      simp only [isValidPosition, Bool.and_eq_false_iff, decide_eq_false_iff_not]
      by_cases hr1 : p1.row < b.size
      · by_cases hc1 : p1.col < b.size
        · by_cases hr2 : p2.row < b.size
          · right; right; exact fun hc2 => hv ⟨⟨hr1, hc1⟩, hr2, hc2⟩
          · right; left; exact hr2
        · left; right; exact hc1
      · left; left; exact hr1
    simp only [swapEmojis, hcond]
    rfl
  · rintro ⟨h1, h2⟩
    have hret : (swapEmojis b p1 p2).2 = true := by
      have hcond : (isValidPosition b p1.row p1.col && isValidPosition b p2.row p2.col) = true := by
        simp [isValidPosition, h1.1, h1.2, h2.1, h2.2]
      simp only [swapEmojis, hcond]
      rfl
    refine ⟨hret, ?_, ?_, ?_⟩
    · rw [cellAt_swapEmojis _ _ _ hw h1 h2]
      by_cases hP : p1.row = p2.row ∧ p1.col = p2.col
      · rw [if_pos hP, hP.1, hP.2]
      · rw [if_neg hP, if_pos ⟨rfl, rfl⟩]
    · rw [cellAt_swapEmojis _ _ _ hw h1 h2, if_pos ⟨rfl, rfl⟩]
    · intro r c hB hA
      rw [cellAt_swapEmojis _ _ _ hw h1 h2, if_neg hA, if_neg hB]

/-- A concrete 2 × 2 board used as witness input for C6. -/
def witnessBoardC6 : GameBoard :=
  { size := 2
    grid := [[some (.basic 0), some (.basic 1)], [some (.basic 2), some (.basic 3)]] }

/-- Witness for C6 at a concrete board and positions. -/
theorem claim_C6_swap_involutive_witness :
    WellFormed witnessBoardC6 ∧
    (swapEmojis (swapEmojis witnessBoardC6 ⟨0, 0⟩ ⟨0, 1⟩).1 ⟨0, 0⟩ ⟨0, 1⟩).1 = witnessBoardC6 :=
  ⟨by decide, (claim_C6_swap_involutive witnessBoardC6 (by decide) ⟨0, 0⟩ ⟨0, 1⟩).2.2⟩

/-- The `type` tag of a match object produced by `MatchDetector`. -/
inductive MatchType where
  | horizontal
  | vertical
  | shaped
deriving DecidableEq, Repr

/-- The `subType` tag of a shaped match. -/
inductive ShapeKind where
  | L
  | T
deriving DecidableEq, Repr

/-- A match object as built by `MatchDetector.findMatches` and
`MatchDetector.findShapedMatches`.  JS objects carry only the fields
relevant to their `type`; here unused fields default to zero values and
are never read for the other shapes, matching the JS control flow. -/
structure Match where
  type : MatchType
  emoji : Emoji
  positions : List Pos
  length : Nat := 0
  row : Nat := 0
  startCol : Nat := 0
  endCol : Nat := 0
  col : Nat := 0
  startRow : Nat := 0
  endRow : Nat := 0
  subType : ShapeKind := .L
  intersection : Pos := ⟨0, 0⟩
deriving DecidableEq, Repr

/-- Fueled translation of the inner `while` loop of
`MatchDetector.findMatches` that counts consecutive cells equal to
`e` starting at index `c` (the loop `while currentCol < size &&
getEmoji(...) === emoji`).  The cursor is bounded by `size`, so fuel
`size` always covers the loop. -/
def runLenAux (f : Nat → Option Emoji) (size : Nat) (e : Emoji) : Nat → Nat → Nat
  | 0, _ => 0
  | fuel + 1, c =>
    if c < size ∧ f c = some e then runLenAux f size e fuel (c + 1) + 1 else 0

/-- Number of extra consecutive cells equal to `e` from index `c` on. -/
def runLen (f : Nat → Option Emoji) (size : Nat) (e : Emoji) (c : Nat) : Nat :=
  runLenAux f size e size c

/-- Fueled translation of one line-scanning `for` loop of
`MatchDetector.findMatches` over a line read through `f`: starting at
index `c`, while `c < size - 2`, skip empty/special cells, count the run
at `c`, emit `(start, length, emoji)` when the run has length ≥ 3 and
jump past it (`col = currentCol - 1` plus the loop increment), otherwise
advance by one.  The cursor strictly increases and the loop guard keeps
it below `size - 2`, so fuel `size` always covers the loop. -/
def scanLineAux (f : Nat → Option Emoji) (size : Nat) : Nat → Nat → List (Nat × Nat × Emoji)
  | 0, _ => []
  | fuel + 1, c =>
    if c < size - 2 then
      match f c with
      | none => scanLineAux f size fuel (c + 1)
      | some e =>
        if e.isSpecial then scanLineAux f size fuel (c + 1)
        else
          let len := runLen f size e (c + 1) + 1
          if 3 ≤ len then (c, len, e) :: scanLineAux f size fuel (c + len)
          else scanLineAux f size fuel (c + 1)
    else []

/-- All runs of one grid line, in scan order. -/
def scanLine (f : Nat → Option Emoji) (size : Nat) : List (Nat × Nat × Emoji) :=
  scanLineAux f size size 0

/-- The per-position filtering of `findMatches` against the `visited`
set: walk the run's positions, keep those not yet visited and add each
kept one to `visited`.  Returns the kept positions and the grown set. -/
def collectPositions : List Pos → List Pos → List Pos × List Pos
  | [], visited => ([], visited)
  | p :: rest, visited =>
    if p ∈ visited then collectPositions rest visited
    else
      let r := collectPositions rest (p :: visited)
      (p :: r.1, r.2)

/-- Positions of a horizontal run at `row`, columns `s ..= s+len-1`. -/
def hRunPositions (row s len : Nat) : List Pos :=
  (List.range len).map fun i => ⟨row, s + i⟩

/-- Positions of a vertical run at `col`, rows `s ..= s+len-1`. -/
def vRunPositions (col s len : Nat) : List Pos :=
  (List.range len).map fun i => ⟨s + i, col⟩

/-- The horizontal match object of `findMatches`. -/
def mkHMatch (row : Nat) (s len : Nat) (e : Emoji) (ps : List Pos) : Match :=
  { type := .horizontal, emoji := e, positions := ps, length := len,
    row := row, startCol := s, endCol := s + len - 1 }

/-- The vertical match object of `findMatches`. -/
def mkVMatch (col : Nat) (s len : Nat) (e : Emoji) (ps : List Pos) : Match :=
  { type := .vertical, emoji := e, positions := ps, length := len,
    col := col, startRow := s, endRow := s + len - 1 }

/-- Turns the runs of one line into match objects, filtering positions
through `visited` and dropping a match whose position list came out
empty (`if (match.positions.length > 0)`). -/
def emitRuns (mk : Nat → Nat → Emoji → List Pos → Match) (runPos : Nat → Nat → List Pos) :
    List (Nat × Nat × Emoji) → List Pos → List Match × List Pos
  | [], visited => ([], visited)
  | (s, len, e) :: rest, visited =>
    let r := collectPositions (runPos s len) visited
    let r2 := emitRuns mk runPos rest r.2
    if r.1.isEmpty then r2 else (mk s len e r.1 :: r2.1, r2.2)

/-- The horizontal phase of `findMatches`, row by row. -/
def findRowMatches (b : GameBoard) : List Nat → List Pos → List Match × List Pos
  | [], visited => ([], visited)
  | row :: rest, visited =>
    let r := emitRuns (mkHMatch row) (hRunPositions row)
      (scanLine (fun c => getEmoji b row c) b.size) visited
    let r2 := findRowMatches b rest r.2
    (r.1 ++ r2.1, r2.2)

/-- The vertical phase of `findMatches`, column by column. -/
def findColMatches (b : GameBoard) : List Nat → List Pos → List Match × List Pos
  | [], visited => ([], visited)
  | col :: rest, visited =>
    let r := emitRuns (mkVMatch col) (vRunPositions col)
      (scanLine (fun row => getEmoji b row col) b.size) visited
    let r2 := findColMatches b rest r.2
    (r.1 ++ r2.1, r2.2)

/-- Mirrors `MatchDetector.findMatches`: horizontal runs of every row,
then vertical runs of every column, sharing one `visited` set that the
horizontal phase fills first. -/
def findMatches (b : GameBoard) : List Match :=
  let h := findRowMatches b (List.range b.size) []
  let v := findColMatches b (List.range b.size) h.2
  h.1 ++ v.1

/-- The duplicate-removal loop of `findShapedMatches` (`posSet` of
string keys; keys `"row-col"` are in bijection with positions). -/
def dedupAux : List Pos → List Pos → List Pos
  | [], _ => []
  | p :: rest, seen =>
    if p ∈ seen then dedupAux rest seen else p :: dedupAux rest (p :: seen)

/-- Deduplicated concatenation used for a shaped match's positions. -/
def dedupPositions (ps : List Pos) : List Pos := dedupAux ps []

/-- Mirrors `MatchDetector.getShapeType`: `T` when the combined length
(`hMatch.length + vMatch.length - 1`) is at least 5, else `L`. -/
def getShapeType (hm vm : Match) : ShapeKind :=
  if 5 ≤ hm.length + vm.length - 1 then .T else .L

/-- The intersection test of `findShapedMatches`, in the JS order of
conjuncts. -/
def intersectsMatch (hm vm : Match) : Bool :=
  decide (vm.startRow ≤ hm.row) && decide (hm.row ≤ vm.endRow) &&
    decide (hm.startCol ≤ vm.col) && decide (vm.col ≤ hm.endCol) &&
    decide (hm.emoji = vm.emoji)

/-- The shaped match object built from an intersecting pair. -/
def mkShapedMatch (hm vm : Match) : Match :=
  { type := .shaped, subType := getShapeType hm vm, emoji := hm.emoji,
    positions := dedupPositions (hm.positions ++ vm.positions),
    intersection := ⟨hm.row, vm.col⟩ }

/-- Mirrors `MatchDetector.findShapedMatches`, as a function of the
linear matches recorded by the preceding `findMatches` call
(`this.lastMatches`): every horizontal/vertical pair that intersects
with equal emoji yields a shaped match. -/
def findShapedMatches (ms : List Match) : List Match :=
  let hs := ms.filter fun m => decide (m.type = .horizontal)
  let vs := ms.filter fun m => decide (m.type = .vertical)
  hs.flatMap fun hm =>
    (vs.filter fun vm => intersectsMatch hm vm).map fun vm => mkShapedMatch hm vm

/-- A special-tile kind (`striped` / `bomb` / `rainbow`). -/
inductive SpecialKind where
  | striped
  | bomb
  | rainbow
deriving DecidableEq, Repr

/-- A special-tile creation record of `MatchDetector.createSpecialEmojis`. -/
structure SpecialRecord where
  type : SpecialKind
  position : Pos
  originalMatch : Match
deriving DecidableEq, Repr

/-- Mirrors `MatchDetector.getMiddlePosition`: `null` on an empty
positions list, otherwise the element at index
`floor(positions.length / 2)`. -/
def getMiddlePosition (m : Match) : Option Pos :=
  if m.positions.length = 0 then none
  else m.positions[m.positions.length / 2]?

/-- The per-match body of `MatchDetector.createSpecialEmojis`: shaped →
bomb at the intersection; length 4 → striped at the middle position;
length ≥ 5 → rainbow at the middle position; otherwise nothing.  The
record is pushed only when both a type and a position were produced
(`if (specialType && position)`). -/
def specialFor (m : Match) : Option SpecialRecord :=
  if m.type = .shaped then some ⟨.bomb, m.intersection, m⟩
  else if m.length = 4 then (getMiddlePosition m).map fun p => ⟨.striped, p, m⟩
  else if 5 ≤ m.length then (getMiddlePosition m).map fun p => ⟨.rainbow, p, m⟩
  else none

/-- Mirrors `MatchDetector.createSpecialEmojis` over a match list. -/
def createSpecialEmojis (ms : List Match) : List SpecialRecord :=
  ms.filterMap specialFor

/-- The special emoji value stored on the board for a special kind
(`GameBoard.specialEmojis`). -/
def specialEmojiValue : SpecialKind → Emoji
  | .striped => .striped
  | .bomb => .bomb
  | .rainbow => .rainbow

/-- Mirrors `GameBoard.createSpecialEmoji`: writes the special value if
the position is valid, otherwise does nothing. -/
def createSpecialEmoji (b : GameBoard) (row col : Nat) (t : SpecialKind) : GameBoard :=
  if isValidPosition b row col then setCellRaw b row col (some (specialEmojiValue t)) else b

/-- The score breakdown returned by `MatchDetector.calculateScore`. -/
structure ScoreData where
  baseScore : Nat
  specialBonus : Nat
  multiplier : Nat
  totalScore : Nat
deriving DecidableEq, Repr

/-- The per-match contribution inside `calculateScore`: shaped matches
score 25 per listed position, linear matches 10/20/50 per listed
position for lengths 3/4/≥5, anything else 0. -/
def matchScore (m : Match) : Nat :=
  if m.type = .shaped then m.positions.length * 25
  else if m.length = 3 then m.positions.length * 10
  else if m.length = 4 then m.positions.length * 20
  else if 5 ≤ m.length then m.positions.length * 50
  else 0

/-- Mirrors `MatchDetector.calculateScore`; `comboMultiplier` is the
detector's current combo multiplier field.  All quantities are natural
numbers, so the JS `Math.floor` on the product is the identity. -/
def calculateScore (ms : List Match) (specialEmojis : List SpecialRecord)
    (comboMultiplier : Nat) : ScoreData :=
  let baseScore := (ms.map matchScore).sum
  let specialBonus := specialEmojis.length * 100
  { baseScore := baseScore, specialBonus := specialBonus, multiplier := comboMultiplier,
    totalScore := (baseScore + specialBonus) * comboMultiplier }

/-- Mirrors `MatchDetector.updateComboMultiplier` (max 8). -/
def updateComboMultiplier (current : Nat) (hasAny : Bool) : Nat :=
  if hasAny then min (current + 1) 8 else 1

/-- The leftward counting loop of `GameBoard.wouldCreateMatch` (`for c =
col - 1; c >= 0; c--` while the cell equals `emoji`); the argument is
the exclusive upper column, so `countLeftH b row e col` counts matching
cells at columns `col-1, col-2, ...`.  The comparison is the raw
`this.grid[row][c] === emoji` on cells (a `null` cell equals a `null`
probe). -/
def countLeftH (b : GameBoard) (row : Nat) (e : Option Emoji) : Nat → Nat
  | 0 => 0
  | c + 1 => if cellAt b row c = e then countLeftH b row e c + 1 else 0

/-- The rightward counting loop of `wouldCreateMatch` (`for c = col + 1;
c < size; c++`), fueled by `b.size` which always covers the range. -/
def countRightH (b : GameBoard) (row : Nat) (e : Option Emoji) : Nat → Nat → Nat
  | 0, _ => 0
  | fuel + 1, c =>
    if c < b.size ∧ cellAt b row c = e then countRightH b row e fuel (c + 1) + 1 else 0

/-- The upward counting loop of `wouldCreateMatch` (`for r = row - 1;
r >= 0; r--`). -/
def countUpV (b : GameBoard) (col : Nat) (e : Option Emoji) : Nat → Nat
  | 0 => 0
  | r + 1 => if cellAt b r col = e then countUpV b col e r + 1 else 0

/-- The downward counting loop of `wouldCreateMatch` (`for r = row + 1;
r < size; r++`), fueled by `b.size`. -/
def countDownV (b : GameBoard) (col : Nat) (e : Option Emoji) : Nat → Nat → Nat
  | 0, _ => 0
  | fuel + 1, r =>
    if r < b.size ∧ cellAt b r col = e then countDownV b col e fuel (r + 1) + 1 else 0

/-- Mirrors `GameBoard.wouldCreateMatch`: true when the probe value `e`
at `(row, col)` sits in a horizontal or vertical line of ≥ 3 equal
cells.  Note that unlike `MatchDetector.findMatches` this comparison
does not exclude special (or `null`) values. -/
def wouldCreateMatch (b : GameBoard) (row col : Nat) (e : Option Emoji) : Bool :=
  let horizontalCount := 1 + countLeftH b row e col + countRightH b row e b.size (col + 1)
  if 3 ≤ horizontalCount then true
  else decide (3 ≤ 1 + countUpV b col e row + countDownV b col e b.size (row + 1))

/-- Mirrors `GameBoard.hasMatches`: some cell, probed with its own
value, would create a match. -/
def hasMatches (b : GameBoard) : Bool :=
  (List.range b.size).any fun row =>
    (List.range b.size).any fun col => wouldCreateMatch b row col (cellAt b row col)

/-- A swap move `{pos1, pos2}` recorded by `getPossibleMoves`. -/
structure MoveRec where
  pos1 : Pos
  pos2 : Pos
deriving DecidableEq, Repr

/-- One speculative check of `getPossibleMoves`: swap, record the move
if the board then has matches, swap back. -/
def checkMoveStep (b : GameBoard) (p1 p2 : Pos) (moves : List MoveRec) :
    GameBoard × List MoveRec :=
  let b1 := (swapEmojis b p1 p2).1
  let moves1 := if hasMatches b1 then moves ++ [⟨p1, p2⟩] else moves
  ((swapEmojis b1 p1 p2).1, moves1)

/-- The body of `getPossibleMoves` for one cell: try the right-neighbor
swap (when `col < size - 1`), then the down-neighbor swap (when
`row < size - 1`). -/
def possibleMovesCell (b : GameBoard) (row col : Nat) (moves : List MoveRec) :
    GameBoard × List MoveRec :=
  let r1 :=
    if col < b.size - 1 then checkMoveStep b ⟨row, col⟩ ⟨row, col + 1⟩ moves else (b, moves)
  if row < b.size - 1 then checkMoveStep r1.1 ⟨row, col⟩ ⟨row + 1, col⟩ r1.2 else r1

/-- The inner column loop of `getPossibleMoves`. -/
def possibleMovesCols (b : GameBoard) (row : Nat) :
    List Nat → List MoveRec → GameBoard × List MoveRec
  | [], moves => (b, moves)
  | col :: rest, moves =>
    let r := possibleMovesCell b row col moves
    possibleMovesCols r.1 row rest r.2

/-- The outer row loop of `getPossibleMoves`. -/
def possibleMovesRows (b : GameBoard) : List Nat → List MoveRec → GameBoard × List MoveRec
  | [], moves => (b, moves)
  | row :: rest, moves =>
    let r := possibleMovesCols b row (List.range b.size) moves
    possibleMovesRows r.1 rest r.2

/-- Mirrors `GameBoard.getPossibleMoves`: brute-force speculative swaps
of every cell with its right and down neighbors, recording those after
which `hasMatches` holds. -/
def getPossibleMoves (b : GameBoard) : List MoveRec :=
  (possibleMovesRows b (List.range b.size) []).2

/-- The spec's per-tile point value: 25 for shaped matches, 10/20/50 for
linear matches of length 3/4/≥5. -/
def pointsPerTile (m : Match) : Nat :=
  if m.type = .shaped then 25
  else if m.length = 3 then 10
  else if m.length = 4 then 20
  else 50

/-- C1: for matches as produced in a cascade step (shaped, or linear of
length ≥ 3), the step score equals
`(Σ positions.length × pointsPerTile + 100 × #specials) × comboMultiplier`;
on naturals the JS `Math.floor` is the identity. -/
theorem claim_C1_step_score (ms : List Match) (specials : List SpecialRecord)
    (combo : Nat) (h : ∀ m ∈ ms, m.type = .shaped ∨ 3 ≤ m.length) :
    (calculateScore ms specials combo).totalScore =
      ((ms.map fun m => m.positions.length * pointsPerTile m).sum +
        100 * specials.length) * combo := by
  have hmap : ms.map matchScore = ms.map fun m => m.positions.length * pointsPerTile m := by
    apply List.map_congr_left
    intro m hm
    rcases h m hm with hsh | hlen
    · simp [matchScore, pointsPerTile, hsh]
    · by_cases h3 : m.length = 3
      · simp [matchScore, pointsPerTile, h3]
      · by_cases h4 : m.length = 4
        · simp [matchScore, pointsPerTile, h4]
        · have h5 : 5 ≤ m.length := by omega
          by_cases hsh : m.type = .shaped
          · simp [matchScore, pointsPerTile, hsh]
          · simp [matchScore, pointsPerTile, hsh, h3, h4, h5]
  simp only [calculateScore, hmap]
  ring

/-- The length-4 vertical example board of the spec: column 0 holds a
4-run, everything else is matchless. -/
def exampleBoardC1 : GameBoard :=
  { size := 4
    grid :=
      [[some (.basic 0), some (.basic 1), some (.basic 2), some (.basic 3)],
       [some (.basic 0), some (.basic 2), some (.basic 3), some (.basic 4)],
       [some (.basic 0), some (.basic 3), some (.basic 4), some (.basic 5)],
       [some (.basic 0), some (.basic 4), some (.basic 5), some (.basic 1)]] }

/-- Witness for C1: the spec's worked example — a length-4 vertical
match creating one striped tile at multiplier 2 scores
(4×20 + 100) × 2 = 360. -/
theorem claim_C1_step_score_witness :
    (∀ m ∈ findMatches exampleBoardC1, m.type = .shaped ∨ 3 ≤ m.length) ∧
    (calculateScore (findMatches exampleBoardC1)
      (createSpecialEmojis (findMatches exampleBoardC1)) 2).totalScore = 360 := by
  refine ⟨by decide, ?_⟩
  rw [claim_C1_step_score _ _ _ (by decide)]
  decide

/-- Membership in the dedup loop's output: kept iff present in the input
and not already seen. -/
theorem mem_dedupAux (l : List Pos) (seen : List Pos) (p : Pos) :
    p ∈ dedupAux l seen ↔ p ∈ l ∧ p ∉ seen := by
  induction l generalizing seen with
  | nil => simp [dedupAux]
  | cons q rest ih =>
    simp only [dedupAux]
    by_cases hq : q ∈ seen
    · rw [if_pos hq, ih]
      constructor
      · rintro ⟨hp, hs⟩
        exact ⟨List.mem_cons_of_mem _ hp, hs⟩
      · rintro ⟨hp, hs⟩
        rcases List.mem_cons.mp hp with rfl | hp
        · exact absurd hq hs
        · exact ⟨hp, hs⟩
    · rw [if_neg hq]
      constructor
      · intro hp
        rcases List.mem_cons.mp hp with rfl | hp
        · exact ⟨List.mem_cons_self _ _, hq⟩
        · obtain ⟨h1, h2⟩ := (ih _).mp hp
          refine ⟨List.mem_cons_of_mem _ h1, fun hs => h2 (List.mem_cons_of_mem _ hs)⟩
      · rintro ⟨hp, hs⟩
        rcases List.mem_cons.mp hp with rfl | hp
        · exact List.mem_cons_self _ _
        · by_cases hpq : p = q
          · subst hpq; exact List.mem_cons_self _ _
          · exact List.mem_cons_of_mem _ ((ih _).mpr ⟨hp, by
              intro hmem
              rcases List.mem_cons.mp hmem with h | h
              · exact hpq h
              · exact hs h⟩)

/-- The dedup loop produces a duplicate-free list. -/
theorem nodup_dedupAux (l : List Pos) (seen : List Pos) : (dedupAux l seen).Nodup := by
  induction l generalizing seen with
  | nil => simp [dedupAux]
  | cons q rest ih =>
    simp only [dedupAux]
    by_cases hq : q ∈ seen
    · rw [if_pos hq]; exact ih seen
    · rw [if_neg hq]
      refine List.nodup_cons.mpr ⟨?_, ih _⟩
      intro hmem
      exact ((mem_dedupAux _ _ _).mp hmem).2 (List.mem_cons_self _ _)

/-- C4: every intersecting horizontal/vertical pair with equal emoji
yields a shaped match in `findShapedMatches` whose position set is the
deduplicated union, whose intersection is `(H.row, V.col)`, and whose
subtype is `T` iff `H.length + V.length - 1 ≥ 5`. -/
theorem claim_C4_shaped_matches (ms : List Match) (hm vm : Match)
    (hhm : hm ∈ ms) (hvm : vm ∈ ms)
    (hth : hm.type = .horizontal) (htv : vm.type = .vertical)
    (he : hm.emoji = vm.emoji)
    (h1 : vm.startRow ≤ hm.row) (h2 : hm.row ≤ vm.endRow)
    (h3 : hm.startCol ≤ vm.col) (h4 : vm.col ≤ hm.endCol) :
    ∃ sm ∈ findShapedMatches ms,
      sm.type = .shaped ∧
      (∀ p, p ∈ sm.positions ↔ p ∈ hm.positions ∨ p ∈ vm.positions) ∧
      sm.positions.Nodup ∧
      sm.intersection = ⟨hm.row, vm.col⟩ ∧
      sm.subType = (if 5 ≤ hm.length + vm.length - 1 then ShapeKind.T else ShapeKind.L) := by
  refine ⟨mkShapedMatch hm vm, ?_, rfl, ?_, ?_, rfl, rfl⟩
  · simp only [findShapedMatches, List.mem_flatMap]
    refine ⟨hm, List.mem_filter.mpr ⟨hhm, by simp [hth]⟩, ?_⟩
    simp only [List.mem_map]
    refine ⟨vm, List.mem_filter.mpr ⟨List.mem_filter.mpr ⟨hvm, by simp [htv]⟩, ?_⟩, rfl⟩
    simp [intersectsMatch, h1, h2, h3, h4, he]
  · intro p
    simp only [mkShapedMatch, dedupPositions]
    rw [mem_dedupAux]
    simp
  · exact nodup_dedupAux _ _

/-- Witness for C4: a concrete L intersection of a 3-run row and a
3-run column sharing the corner cell. -/
theorem claim_C4_shaped_matches_witness :
    ∃ sm ∈ findShapedMatches
        [mkHMatch 0 0 3 (.basic 0) (hRunPositions 0 0 3),
         mkVMatch 0 0 3 (.basic 0) (vRunPositions 0 0 3)],
      sm.type = .shaped ∧
      (∀ p, p ∈ sm.positions ↔
        p ∈ hRunPositions 0 0 3 ∨ p ∈ vRunPositions 0 0 3) ∧
      sm.positions.Nodup ∧
      sm.intersection = ⟨0, 0⟩ ∧
      sm.subType = (if 5 ≤ 3 + 3 - 1 then ShapeKind.T else ShapeKind.L) :=
  claim_C4_shaped_matches
    [mkHMatch 0 0 3 (.basic 0) (hRunPositions 0 0 3),
     mkVMatch 0 0 3 (.basic 0) (vRunPositions 0 0 3)]
    (mkHMatch 0 0 3 (.basic 0) (hRunPositions 0 0 3))
    (mkVMatch 0 0 3 (.basic 0) (vRunPositions 0 0 3))
    (by decide) (by decide) (by decide) (by decide) (by decide)
    (by decide) (by decide) (by decide) (by decide)

/-- A board whose cascade step contains a length-4 vertical run in
column 0 overlapping two horizontal 3-runs (rows 0 and 1), so that the
`visited` set of `findMatches` strips the first two positions of the
vertical match. -/
def cexBoardC3 : GameBoard :=
  { size := 4
    grid :=
      [[some (.basic 0), some (.basic 0), some (.basic 0), some (.basic 1)],
       [some (.basic 0), some (.basic 0), some (.basic 0), some (.basic 2)],
       [some (.basic 0), some (.basic 3), some (.basic 1), some (.basic 3)],
       [some (.basic 0), some (.basic 1), some (.basic 2), some (.basic 1)]] }

/-- Counterexample to C3 as stated: on `cexBoardC3` the finder emits a
linear length-4 vertical match (column 0, rows 0–3) whose recorded
positions list was trimmed to `[(2,0), (3,0)]` by the visited set, and
`createSpecialEmojis` places the striped tile at `(3,0)` — not at the
middle position of the run, which is index `floor(4/2) = 2`,
i.e. `(2,0)`. -/
theorem claim_C3_counterexample :
    ∃ m ∈ findMatches cexBoardC3,
      m.type = .vertical ∧ m.length = 4 ∧ m.col = 0 ∧ m.startRow = 0 ∧
      vRunPositions m.col m.startRow m.length =
        [⟨0, 0⟩, ⟨1, 0⟩, ⟨2, 0⟩, ⟨3, 0⟩] ∧
      (vRunPositions m.col m.startRow m.length)[m.length / 2]? = some ⟨2, 0⟩ ∧
      specialFor m = some ⟨.striped, ⟨3, 0⟩, m⟩ ∧
      (⟨3, 0⟩ : Pos) ≠ ⟨2, 0⟩ := by decide

/-- C3 amended: special-tile creation follows the tier rule per match
independently — shaped → bomb at the intersection; linear length 4 →
striped; linear length ≥ 5 → rainbow; linear length 3 → nothing — but a
striped/rainbow tile is placed at index `floor(positions.length / 2)` of
the match's recorded positions list (which is the middle of the run only
when the positions list is the whole run), and a linear match whose
recorded positions list is empty creates nothing. -/
theorem claim_C3_special_tiers (ms : List Match) (m : Match) (hm : m ∈ ms) :
    (m.type = .shaped →
      (⟨.bomb, m.intersection, m⟩ : SpecialRecord) ∈ createSpecialEmojis ms) ∧
    (m.type ≠ .shaped → m.length = 4 → m.positions ≠ [] →
      ∃ p, m.positions[m.positions.length / 2]? = some p ∧
        (⟨.striped, p, m⟩ : SpecialRecord) ∈ createSpecialEmojis ms) ∧
    (m.type ≠ .shaped → 5 ≤ m.length → m.positions ≠ [] →
      ∃ p, m.positions[m.positions.length / 2]? = some p ∧
        (⟨.rainbow, p, m⟩ : SpecialRecord) ∈ createSpecialEmojis ms) ∧
    (m.type ≠ .shaped → m.length = 3 →
      ∀ r ∈ createSpecialEmojis ms, r.originalMatch ≠ m) := by
  have hmid : m.positions ≠ [] →
      ∃ p, m.positions[m.positions.length / 2]? = some p ∧ getMiddlePosition m = some p := by
    intro hne
    have hlen : 0 < m.positions.length := List.length_pos.mpr hne
    have hidx : m.positions.length / 2 < m.positions.length := Nat.div_lt_self hlen (by omega)
    refine ⟨m.positions.get ⟨m.positions.length / 2, hidx⟩, ?_, ?_⟩
    · rw [List.getElem?_eq_getElem hidx]
      rfl
    · rw [getMiddlePosition, if_neg (Nat.pos_iff_ne_zero.mp hlen),
        List.getElem?_eq_getElem hidx]
      rfl
  refine ⟨?_, ?_, ?_, ?_⟩
  · intro hsh
    apply List.mem_filterMap.mpr
    exact ⟨m, hm, by simp [specialFor, hsh]⟩
  · intro hsh h4 hne
    obtain ⟨p, hp1, hp2⟩ := hmid hne
    refine ⟨p, hp1, ?_⟩
    apply List.mem_filterMap.mpr
    exact ⟨m, hm, by simp [specialFor, hsh, h4, hp2]⟩
  · intro hsh h5 hne
    obtain ⟨p, hp1, hp2⟩ := hmid hne
    refine ⟨p, hp1, ?_⟩
    have h4 : m.length ≠ 4 := by omega
    apply List.mem_filterMap.mpr
    exact ⟨m, hm, by simp [specialFor, hsh, h4, h5, hp2]⟩
  · intro hsh h3 r hr hrm
    obtain ⟨m', hm', hsp⟩ := List.mem_filterMap.mp hr
    have horig : r.originalMatch = m' := by
      simp only [specialFor] at hsp
      split at hsp
      · cases hsp; rfl
      · split at hsp
        · rcases Option.map_eq_some'.mp hsp with ⟨p, _, hp⟩
          cases hp; rfl
        · split at hsp
          · rcases Option.map_eq_some'.mp hsp with ⟨p, _, hp⟩
            cases hp; rfl
          · cases hsp
    rw [horig] at hrm
    subst hrm
    simp [specialFor, hsh, h3] at hsp

/-- A linear length-4 match with a full positions list, witness input
for the amended C3. -/
def witnessMatchC3 : Match :=
  mkVMatch 0 0 4 (.basic 0) (vRunPositions 0 0 4)

/-- Witness for the amended C3 at a concrete length-4 linear match. -/
theorem claim_C3_special_tiers_witness :
    witnessMatchC3 ∈ [witnessMatchC3] ∧
    (∃ p, witnessMatchC3.positions[witnessMatchC3.positions.length / 2]? = some p ∧
      (⟨.striped, p, witnessMatchC3⟩ : SpecialRecord) ∈ createSpecialEmojis [witnessMatchC3]) :=
  ⟨by decide,
    (claim_C3_special_tiers [witnessMatchC3] witnessMatchC3 (by decide)).2.1
      (by decide) (by decide) (by decide)⟩

/-- Every index inside the counted run satisfies the loop condition. -/
theorem runLenAux_mem (f : Nat → Option Emoji) (size : Nat) (e : Emoji) :
    ∀ fuel c j, j < runLenAux f size e fuel c → c + j < size ∧ f (c + j) = some e := by
  intro fuel
  induction fuel with
  | zero => intro c j hj; simp [runLenAux] at hj
  | succ fuel ih =>
    intro c j hj
    rw [runLenAux] at hj
    split at hj
    · rename_i hcond
      cases j with
      | zero => simpa using hcond
      | succ j' =>
        have := ih (c + 1) j' (by omega)
        constructor
        · omega
        · have harith : c + (j' + 1) = c + 1 + j' := by omega
          rw [harith]
          exact this.2
    · omega

/-- With enough fuel, the counting loop stops because the loop condition
fails at the first uncounted index, exactly like the JS `while`. -/
theorem runLenAux_stop (f : Nat → Option Emoji) (size : Nat) (e : Emoji) :
    ∀ fuel c, size - c ≤ fuel →
      ¬(c + runLenAux f size e fuel c < size ∧ f (c + runLenAux f size e fuel c) = some e) := by
  intro fuel
  induction fuel with
  | zero =>
    intro c hfc
    simp only [runLenAux]
    omega
  | succ fuel ih =>
    intro c hfc
    rw [runLenAux]
    split
    · rename_i hcond
      have := ih (c + 1) (by omega)
      intro hcontra
      apply this
      constructor
      · omega
      · have harith : c + 1 + runLenAux f size e fuel (c + 1) =
            c + (runLenAux f size e fuel (c + 1) + 1) := by omega
        rw [harith]
        exact hcontra.2
    · rename_i hcond
      simpa using hcond

/-- The count does not depend on the fuel once the fuel covers the
remaining range. -/
theorem runLenAux_fuel_congr (f : Nat → Option Emoji) (size : Nat) (e : Emoji) :
    ∀ fuel1 fuel2 c, size - c ≤ fuel1 → size - c ≤ fuel2 →
      runLenAux f size e fuel1 c = runLenAux f size e fuel2 c := by
  intro fuel1
  induction fuel1 with
  | zero =>
    intro fuel2 c h1 h2
    cases fuel2 with
    | zero => rfl
    | succ fuel2 =>
      simp only [runLenAux]
      rw [if_neg]
      rintro ⟨hlt, _⟩
      omega
  | succ fuel1 ih =>
    intro fuel2 c h1 h2
    cases fuel2 with
    | zero =>
      simp only [runLenAux]
      rw [if_neg]
      rintro ⟨hlt, _⟩
      omega
    | succ fuel2 =>
      simp only [runLenAux]
      by_cases hcond : c < size ∧ f c = some e
      · rw [if_pos hcond, if_pos hcond, ih fuel2 (c + 1) (by omega) (by omega)]
      · rw [if_neg hcond, if_neg hcond]

/-- Unfolding step for `runLen` at an index satisfying the condition. -/
theorem runLen_succ (f : Nat → Option Emoji) (size : Nat) (e : Emoji) (c : Nat)
    (hc : c < size) (hf : f c = some e) :
    runLen f size e c = runLen f size e (c + 1) + 1 := by
  unfold runLen
  obtain ⟨size', rfl⟩ : ∃ s, size = s + 1 := ⟨size - 1, by omega⟩
  rw [runLenAux, if_pos ⟨hc, hf⟩]
  have := runLenAux_fuel_congr f (size' + 1) e size' (size' + 1) (c + 1) (by omega) (by omega)
  rw [this]

/-- Soundness of the line scan: every emitted run `(s, len, e)` starts
at or after the scan cursor, has length ≥ 3, starts inside the loop
range, carries a non-special emoji, covers exactly cells equal to `e`,
stops at a cell that breaks the run (or the border), and — except when
it starts at the cursor itself — is preceded by a cell that does not
extend it (maximality to the left). -/
theorem scanLineAux_sound (f : Nat → Option Emoji) (size : Nat) :
    ∀ fuel c r, r ∈ scanLineAux f size fuel c →
      c ≤ r.1 ∧ 3 ≤ r.2.1 ∧ r.1 < size - 2 ∧ r.2.2.isSpecial = false ∧
      (∀ i < r.2.1, f (r.1 + i) = some r.2.2) ∧
      ¬(r.1 + r.2.1 < size ∧ f (r.1 + r.2.1) = some r.2.2) ∧
      (c < r.1 → f (r.1 - 1) ≠ some r.2.2) := by
  intro fuel
  induction fuel with
  | zero =>
    intro c r hr
    simp [scanLineAux] at hr
  | succ fuel ih =>
    intro c r hr
    simp only [scanLineAux] at hr
    split at hr
    case isFalse => simp at hr
    case isTrue hc =>
      split at hr
      case h_1 heq =>
        have IH := ih (c + 1) r hr
        refine ⟨by omega, IH.2.1, IH.2.2.1, IH.2.2.2.1, IH.2.2.2.2.1, IH.2.2.2.2.2.1, ?_⟩
        intro hlt
        by_cases hgt : c + 1 < r.1
        · exact IH.2.2.2.2.2.2 hgt
        · have hr1 : r.1 = c + 1 := by have := IH.1; omega
          rw [hr1]
          simp only [Nat.add_sub_cancel]
          rw [heq]
          exact fun h => Option.noConfusion h
      case h_2 e heq =>
        split at hr
        case isTrue hsp =>
          have IH := ih (c + 1) r hr
          refine ⟨by omega, IH.2.1, IH.2.2.1, IH.2.2.2.1, IH.2.2.2.2.1, IH.2.2.2.2.2.1, ?_⟩
          intro hlt
          by_cases hgt : c + 1 < r.1
          · exact IH.2.2.2.2.2.2 hgt
          · have hr1 : r.1 = c + 1 := by have := IH.1; omega
            rw [hr1]
            simp only [Nat.add_sub_cancel]
            rw [heq]
            intro hcon
            have hee : e = r.2.2 := by injection hcon
            rw [hee] at hsp
            rw [IH.2.2.2.1] at hsp
            exact Bool.noConfusion hsp
        case isFalse hsp =>
          split at hr
          case isTrue h3 =>
            rcases List.mem_cons.mp hr with rfl | htail
            · refine ⟨Nat.le_refl c, h3, hc, Bool.not_eq_true _ ▸ hsp, ?_, ?_, ?_⟩
              · intro i hi
                cases i with
                | zero => simpa using heq
                | succ j =>
                  have hj : j < runLen f size e (c + 1) := by
                    simp only at hi
                    omega
                  have := runLenAux_mem f size e size (c + 1) j hj
                  have harith : c + (j + 1) = c + 1 + j := by omega
                  simpa [harith] using this.2
              · have hstop := runLenAux_stop f size e size (c + 1) (by omega)
                have harith : c + 1 + runLenAux f size e size (c + 1) =
                    c + (runLen f size e (c + 1) + 1) := by
                  simp only [runLen]
                  omega
                rw [harith] at hstop
                simpa using hstop
              · intro hlt
                omega
            · have IH := ih (c + (runLen f size e (c + 1) + 1)) r htail
              have hlen3 : 3 ≤ runLen f size e (c + 1) + 1 := h3
              refine ⟨by omega, IH.2.1, IH.2.2.1, IH.2.2.2.1, IH.2.2.2.2.1,
                IH.2.2.2.2.2.1, ?_⟩
              intro hlt
              by_cases hgt : c + (runLen f size e (c + 1) + 1) < r.1
              · exact IH.2.2.2.2.2.2 hgt
              · have hr1 : r.1 = c + (runLen f size e (c + 1) + 1) := by
                  have := IH.1; omega
                intro hcon
                -- the cell just before `r` is the last cell of the run at `c`
                have hlast : f (r.1 - 1) = some e := by
                  rw [hr1]
                  have harith : c + (runLen f size e (c + 1) + 1) - 1 =
                      c + runLen f size e (c + 1) := by omega
                  rw [harith]
                  cases hrl : runLen f size e (c + 1) with
                  | zero => simpa [hrl] using heq
                  | succ j =>
                    have hj : j < runLen f size e (c + 1) := by omega
                    have := runLenAux_mem f size e size (c + 1) j hj
                    have harith2 : c + (j + 1) = c + 1 + j := by omega
                    rw [harith2]
                    exact this.2
                have hee : r.2.2 = e := by
                  rw [hcon] at hlast
                  injection hlast
                -- but then the run at `c` would extend past its end
                have hnext : f (c + (runLen f size e (c + 1) + 1)) = some e := by
                  have h0 := IH.2.2.2.2.1 0 (by omega)
                  rw [Nat.add_zero] at h0
                  rw [hr1] at h0
                  rw [hee] at h0
                  exact h0
                have hin : c + (runLen f size e (c + 1) + 1) < size := by
                  have := IH.2.2.1
                  omega
                have hstop := runLenAux_stop f size e size (c + 1) (by omega)
                apply hstop
                constructor
                · simp only [runLen] at hin ⊢
                  omega
                · have harith : c + 1 + runLenAux f size e size (c + 1) =
                      c + (runLen f size e (c + 1) + 1) := by
                    simp only [runLen]
                    omega
                  rw [harith]
                  exact hnext
          case isFalse h3 =>
            have IH := ih (c + 1) r hr
            refine ⟨by omega, IH.2.1, IH.2.2.1, IH.2.2.2.1, IH.2.2.2.2.1,
              IH.2.2.2.2.2.1, ?_⟩
            intro hlt
            by_cases hgt : c + 1 < r.1
            · exact IH.2.2.2.2.2.2 hgt
            · have hr1 : r.1 = c + 1 := by have := IH.1; omega
              rw [hr1]
              simp only [Nat.add_sub_cancel]
              rw [heq]
              intro hcon
              have hee : e = r.2.2 := by injection hcon
              -- the run at `c` would then have length ≥ 3
              have hf1 : f (c + 1) = some e := by
                have hx := IH.2.2.2.2.1 0 (by omega)
                rw [hr1] at hx
                simpa [← hee] using hx
              have hf2 : f (c + 2) = some e := by
                have hx := IH.2.2.2.2.1 1 (by have := IH.2.1; omega)
                rw [hr1] at hx
                have harith : c + 1 + 1 = c + 2 := by omega
                rw [harith] at hx
                rw [← hee] at hx
                exact hx
              have hb1 : c + 1 < size := by have := IH.2.2.1; rw [hr1] at this; omega
              have hb2 : c + 2 < size := by have := IH.2.2.1; rw [hr1] at this; omega
              have he1 := runLen_succ f size e (c + 1) hb1 hf1
              have he2 := runLen_succ f size e (c + 2) hb2 hf2
              rw [(by omega : c + 1 + 1 = c + 2)] at he1
              omega

/-- Emitted runs are in scan order: each run ends at or before the start
of every later run (the scan jumps past an emitted run). -/
theorem scanLineAux_sorted (f : Nat → Option Emoji) (size : Nat) :
    ∀ fuel c, List.Pairwise (fun a b => a.1 + a.2.1 ≤ b.1) (scanLineAux f size fuel c) := by
  intro fuel
  induction fuel with
  | zero => intro c; simp [scanLineAux]
  | succ fuel ih =>
    intro c
    simp only [scanLineAux]
    split
    case isFalse => exact List.Pairwise.nil
    case isTrue hc =>
      split
      case h_1 => exact ih (c + 1)
      case h_2 e heq =>
        split
        case isTrue => exact ih (c + 1)
        case isFalse =>
          split
          case isTrue h3 =>
            refine List.pairwise_cons.mpr ⟨?_, ih _⟩
            intro r hr
            exact (scanLineAux_sound f size fuel (c + (runLen f size e (c + 1) + 1)) r hr).1
          case isFalse => exact ih (c + 1)

/-- Positions kept by the visited filter come from the input run. -/
theorem collectPositions_fst_subset (l v : List Pos) :
    ∀ p ∈ (collectPositions l v).1, p ∈ l := by
  induction l generalizing v with
  | nil => simp [collectPositions]
  | cons q rest ih =>
    intro p hp
    simp only [collectPositions] at hp
    split at hp
    · exact List.mem_cons_of_mem _ (ih v p hp)
    · rcases List.mem_cons.mp hp with rfl | hp
      · exact List.mem_cons_self _ _
      · exact List.mem_cons_of_mem _ (ih _ p hp)

/-- The grown visited set only adds positions of the processed run. -/
theorem collectPositions_snd_subset (l v : List Pos) :
    ∀ q ∈ (collectPositions l v).2, q ∈ l ∨ q ∈ v := by
  induction l generalizing v with
  | nil => simp [collectPositions]
  | cons p rest ih =>
    intro q hq
    simp only [collectPositions] at hq
    split at hq
    · rcases ih v q hq with h | h
      · exact Or.inl (List.mem_cons_of_mem _ h)
      · exact Or.inr h
    · rcases ih (p :: v) q hq with h | h
      · exact Or.inl (List.mem_cons_of_mem _ h)
      · rcases List.mem_cons.mp h with rfl | h
        · exact Or.inl (List.mem_cons_self _ _)
        · exact Or.inr h

/-- When a duplicate-free run is disjoint from the visited set, the
filter keeps the whole run. -/
theorem collectPositions_full (l v : List Pos) (hn : l.Nodup)
    (hd : ∀ p ∈ l, p ∉ v) : (collectPositions l v).1 = l := by
  induction l generalizing v with
  | nil => simp [collectPositions]
  | cons p rest ih =>
    simp only [collectPositions]
    rw [if_neg (hd p (List.mem_cons_self _ _))]
    obtain ⟨hnp, hnr⟩ := List.nodup_cons.mp hn
    have := ih (p :: v) hnr (by
      intro q hq hmem
      rcases List.mem_cons.mp hmem with rfl | h
      · exact hnp hq
      · exact hd q (List.mem_cons_of_mem _ hq) h)
    simp [this]

/-- Every match emitted from a line comes from one of the line's runs,
with a non-empty positions list included in the run's positions. -/
theorem emitRuns_mem (mk : Nat → Nat → Emoji → List Pos → Match)
    (runPos : Nat → Nat → List Pos) :
    ∀ runs visited m, m ∈ (emitRuns mk runPos runs visited).1 →
      ∃ s len e ps, (s, len, e) ∈ runs ∧ m = mk s len e ps ∧ ps ≠ [] ∧
        ∀ p ∈ ps, p ∈ runPos s len := by
  intro runs
  induction runs with
  | nil => intro visited m hm; simp [emitRuns] at hm
  | cons run rest ih =>
    intro visited m hm
    obtain ⟨s, len, e⟩ := run
    simp only [emitRuns] at hm
    split at hm
    · obtain ⟨s', len', e', ps', hrun, hmk, hne, hsub⟩ := ih _ m hm
      exact ⟨s', len', e', ps', List.mem_cons_of_mem _ hrun, hmk, hne, hsub⟩
    · rename_i hne
      rcases List.mem_cons.mp hm with rfl | hm
      · refine ⟨s, len, e, _, List.mem_cons_self _ _, rfl, ?_, ?_⟩
        · intro hemp
          rw [hemp] at hne
          simp at hne
        · exact collectPositions_fst_subset _ _
      · obtain ⟨s', len', e', ps', hrun, hmk, hne', hsub⟩ := ih _ m hm
        exact ⟨s', len', e', ps', List.mem_cons_of_mem _ hrun, hmk, hne', hsub⟩

/-- The visited set after a line only grows by positions of the line's
runs. -/
theorem emitRuns_snd_subset (mk : Nat → Nat → Emoji → List Pos → Match)
    (runPos : Nat → Nat → List Pos) :
    ∀ runs visited q, q ∈ (emitRuns mk runPos runs visited).2 →
      q ∈ visited ∨ ∃ r ∈ runs, q ∈ runPos r.1 r.2.1 := by
  intro runs
  induction runs with
  | nil => intro visited q hq; simp only [emitRuns] at hq; exact Or.inl hq
  | cons run rest ih =>
    intro visited q hq
    obtain ⟨s, len, e⟩ := run
    have hq2 : q ∈ (emitRuns mk runPos rest (collectPositions (runPos s len) visited).2).2 := by
      simp only [emitRuns] at hq
      split at hq
      · exact hq
      · exact hq
    rcases ih _ q hq2 with h | ⟨r, hr, hrp⟩
    · rcases collectPositions_snd_subset _ _ q h with h' | h'
      · exact Or.inr ⟨(s, len, e), List.mem_cons_self _ _, h'⟩
      · exact Or.inl h'
    · exact Or.inr ⟨r, List.mem_cons_of_mem _ hr, hrp⟩

/-- Matches emitted from one line have pairwise disjoint positions, as
soon as the line's runs are sorted and the run-position map separates
ordered runs. -/
theorem emitRuns_pairwise (mk : Nat → Nat → Emoji → List Pos → Match)
    (runPos : Nat → Nat → List Pos)
    (hpos : ∀ s len e ps, (mk s len e ps).positions = ps)
    (hdisj : ∀ s1 len1 s2 len2, s1 + len1 ≤ s2 →
      ∀ p ∈ runPos s1 len1, p ∉ runPos s2 len2) :
    ∀ runs visited, List.Pairwise (fun a b => a.1 + a.2.1 ≤ b.1) runs →
      List.Pairwise (fun m1 m2 => ∀ p ∈ m1.positions, p ∉ m2.positions)
        (emitRuns mk runPos runs visited).1 := by
  intro runs
  induction runs with
  | nil => intro visited hp; simp [emitRuns]
  | cons run rest ih =>
    intro visited hp
    obtain ⟨s, len, e⟩ := run
    obtain ⟨hrel, hrest⟩ := List.pairwise_cons.mp hp
    simp only [emitRuns]
    split
    · exact ih _ hrest
    · refine List.pairwise_cons.mpr ⟨?_, ih _ hrest⟩
      intro m2 hm2 p hp1 hp2
      obtain ⟨s2, len2, e2, ps2, hrun2, hmk2, _, hsub2⟩ := emitRuns_mem mk runPos _ _ m2 hm2
      rw [hpos] at hp1
      have hp1' : p ∈ runPos s len := collectPositions_fst_subset _ _ p hp1
      rw [hmk2, hpos] at hp2
      have hp2' : p ∈ runPos s2 len2 := hsub2 p hp2
      have hle : s + len ≤ s2 := hrel (s2, len2, e2) hrun2
      exact hdisj s len s2 len2 hle p hp1' hp2'

/-- When no position of any run is already visited, every emitted match
keeps the full run as its positions list. -/
theorem emitRuns_full (mk : Nat → Nat → Emoji → List Pos → Match)
    (runPos : Nat → Nat → List Pos)
    (hnodup : ∀ s len, (runPos s len).Nodup)
    (hdisj : ∀ s1 len1 s2 len2, s1 + len1 ≤ s2 →
      ∀ p ∈ runPos s1 len1, p ∉ runPos s2 len2) :
    ∀ runs visited, List.Pairwise (fun a b => a.1 + a.2.1 ≤ b.1) runs →
      (∀ r ∈ runs, ∀ p ∈ runPos r.1 r.2.1, p ∉ visited) →
      ∀ m ∈ (emitRuns mk runPos runs visited).1,
        ∃ s len e, (s, len, e) ∈ runs ∧ m = mk s len e (runPos s len) := by
  intro runs
  induction runs with
  | nil => intro visited _ _ m hm; simp [emitRuns] at hm
  | cons run rest ih =>
    intro visited hp hvis m hm
    obtain ⟨s, len, e⟩ := run
    obtain ⟨hrel, hrest⟩ := List.pairwise_cons.mp hp
    have hfull : (collectPositions (runPos s len) visited).1 = runPos s len :=
      collectPositions_full _ _ (hnodup s len)
        (hvis (s, len, e) (List.mem_cons_self _ _))
    have hnext : ∀ r ∈ rest, ∀ p ∈ runPos r.1 r.2.1,
        p ∉ (collectPositions (runPos s len) visited).2 := by
      intro r hr p hrp hmem
      rcases collectPositions_snd_subset _ _ p hmem with h | h
      · exact hdisj s len r.1 r.2.1 (hrel r hr) p h hrp
      · exact hvis r (List.mem_cons_of_mem _ hr) p hrp h
    simp only [emitRuns] at hm
    split at hm
    · obtain ⟨s', len', e', hrun', hmk'⟩ := ih _ hrest hnext m hm
      exact ⟨s', len', e', List.mem_cons_of_mem _ hrun', hmk'⟩
    · rcases List.mem_cons.mp hm with rfl | hm
      · exact ⟨s, len, e, List.mem_cons_self _ _, by rw [hfull]⟩
      · obtain ⟨s', len', e', hrun', hmk'⟩ := ih _ hrest hnext m hm
        exact ⟨s', len', e', List.mem_cons_of_mem _ hrun', hmk'⟩

theorem mem_hRunPositions (row s len : Nat) (p : Pos) :
    p ∈ hRunPositions row s len ↔ p.row = row ∧ s ≤ p.col ∧ p.col < s + len := by
  simp only [hRunPositions, List.mem_map, List.mem_range]
  constructor
  · rintro ⟨i, hi, rfl⟩
    exact ⟨rfl, by simp, by simp; omega⟩
  · rintro ⟨hrow, hle, hlt⟩
    refine ⟨p.col - s, by omega, ?_⟩
    cases p with
    | mk prow pcol =>
      simp only at hrow hle hlt ⊢
      rw [hrow]
      congr 1
      omega

theorem mem_vRunPositions (col s len : Nat) (p : Pos) :
    p ∈ vRunPositions col s len ↔ p.col = col ∧ s ≤ p.row ∧ p.row < s + len := by
  simp only [vRunPositions, List.mem_map, List.mem_range]
  constructor
  · rintro ⟨i, hi, rfl⟩
    exact ⟨rfl, by simp, by simp; omega⟩
  · rintro ⟨hcol, hle, hlt⟩
    refine ⟨p.row - s, by omega, ?_⟩
    cases p with
    | mk prow pcol =>
      simp only at hcol hle hlt ⊢
      rw [hcol]
      congr 1
      omega

theorem hRunPositions_nodup (row s len : Nat) : (hRunPositions row s len).Nodup := by
  refine List.Nodup.map ?_ (List.nodup_range len)
  intro i j hij
  have : s + i = s + j := congrArg Pos.col hij
  omega

theorem vRunPositions_nodup (col s len : Nat) : (vRunPositions col s len).Nodup := by
  refine List.Nodup.map ?_ (List.nodup_range len)
  intro i j hij
  have : s + i = s + j := congrArg Pos.row hij
  omega

theorem hRunPositions_disj (row : Nat) (s1 len1 s2 len2 : Nat) (h : s1 + len1 ≤ s2) :
    ∀ p ∈ hRunPositions row s1 len1, p ∉ hRunPositions row s2 len2 := by
  intro p hp1 hp2
  rw [mem_hRunPositions] at hp1 hp2
  omega

theorem vRunPositions_disj (col : Nat) (s1 len1 s2 len2 : Nat) (h : s1 + len1 ≤ s2) :
    ∀ p ∈ vRunPositions col s1 len1, p ∉ vRunPositions col s2 len2 := by
  intro p hp1 hp2
  rw [mem_vRunPositions] at hp1 hp2
  omega

/-- Description of the horizontal phase's matches. -/
theorem findRowMatches_mem (b : GameBoard) :
    ∀ rows visited m, m ∈ (findRowMatches b rows visited).1 →
      ∃ row ∈ rows, ∃ s len e ps,
        (s, len, e) ∈ scanLine (fun c => getEmoji b row c) b.size ∧
        m = mkHMatch row s len e ps ∧ ps ≠ [] ∧
        ∀ p ∈ ps, p ∈ hRunPositions row s len := by
  intro rows
  induction rows with
  | nil => intro visited m hm; simp [findRowMatches] at hm
  | cons row rest ih =>
    intro visited m hm
    simp only [findRowMatches] at hm
    rcases List.mem_append.mp hm with hblk | hrec
    · obtain ⟨s, len, e, ps, hrun, hmk, hne, hsub⟩ :=
        emitRuns_mem (mkHMatch row) (hRunPositions row) _ _ m hblk
      exact ⟨row, List.mem_cons_self _ _, s, len, e, ps, hrun, hmk, hne, hsub⟩
    · obtain ⟨row', hrow', rest'⟩ := ih _ m hrec
      exact ⟨row', List.mem_cons_of_mem _ hrow', rest'⟩

/-- Description of the vertical phase's matches. -/
theorem findColMatches_mem (b : GameBoard) :
    ∀ cols visited m, m ∈ (findColMatches b cols visited).1 →
      ∃ col ∈ cols, ∃ s len e ps,
        (s, len, e) ∈ scanLine (fun row => getEmoji b row col) b.size ∧
        m = mkVMatch col s len e ps ∧ ps ≠ [] ∧
        ∀ p ∈ ps, p ∈ vRunPositions col s len := by
  intro cols
  induction cols with
  | nil => intro visited m hm; simp [findColMatches] at hm
  | cons col rest ih =>
    intro visited m hm
    simp only [findColMatches] at hm
    rcases List.mem_append.mp hm with hblk | hrec
    · obtain ⟨s, len, e, ps, hrun, hmk, hne, hsub⟩ :=
        emitRuns_mem (mkVMatch col) (vRunPositions col) _ _ m hblk
      exact ⟨col, List.mem_cons_self _ _, s, len, e, ps, hrun, hmk, hne, hsub⟩
    · obtain ⟨col', hcol', rest'⟩ := ih _ m hrec
      exact ⟨col', List.mem_cons_of_mem _ hcol', rest'⟩

/-- The horizontal matches of distinct rows have pairwise disjoint
positions. -/
theorem findRowMatches_pairwise (b : GameBoard) :
    ∀ rows visited, rows.Nodup →
      List.Pairwise (fun m1 m2 => ∀ p ∈ m1.positions, p ∉ m2.positions)
        (findRowMatches b rows visited).1 := by
  intro rows
  induction rows with
  | nil => intro visited _; simp [findRowMatches]
  | cons row rest ih =>
    intro visited hnd
    obtain ⟨hrow, hrest⟩ := List.nodup_cons.mp hnd
    simp only [findRowMatches]
    rw [List.pairwise_append]
    refine ⟨?_, ih _ hrest, ?_⟩
    · exact emitRuns_pairwise (mkHMatch row) (hRunPositions row)
        (fun _ _ _ _ => rfl) (hRunPositions_disj row) _ _
        (scanLineAux_sorted _ _ _ _)
    · intro m1 hm1 m2 hm2 p hp1 hp2
      obtain ⟨s, len, e, ps, _, hmk1, _, hsub1⟩ :=
        emitRuns_mem (mkHMatch row) (hRunPositions row) _ _ m1 hm1
      obtain ⟨row2, hrow2, s2, len2, e2, ps2, _, hmk2, _, hsub2⟩ :=
        findRowMatches_mem b _ _ m2 hm2
      rw [hmk1] at hp1
      rw [hmk2] at hp2
      have h1 := (mem_hRunPositions _ _ _ _).mp (hsub1 p hp1)
      have h2 := (mem_hRunPositions _ _ _ _).mp (hsub2 p hp2)
      have : row ≠ row2 := fun h => hrow (h ▸ hrow2)
      exact this (h1.1 ▸ h2.1 ▸ rfl)

/-- The vertical matches of distinct columns have pairwise disjoint
positions. -/
theorem findColMatches_pairwise (b : GameBoard) :
    ∀ cols visited, cols.Nodup →
      List.Pairwise (fun m1 m2 => ∀ p ∈ m1.positions, p ∉ m2.positions)
        (findColMatches b cols visited).1 := by
  intro cols
  induction cols with
  | nil => intro visited _; simp [findColMatches]
  | cons col rest ih =>
    intro visited hnd
    obtain ⟨hcol, hrest⟩ := List.nodup_cons.mp hnd
    simp only [findColMatches]
    rw [List.pairwise_append]
    refine ⟨?_, ih _ hrest, ?_⟩
    · exact emitRuns_pairwise (mkVMatch col) (vRunPositions col)
        (fun _ _ _ _ => rfl) (vRunPositions_disj col) _ _
        (scanLineAux_sorted _ _ _ _)
    · intro m1 hm1 m2 hm2 p hp1 hp2
      obtain ⟨s, len, e, ps, _, hmk1, _, hsub1⟩ :=
        emitRuns_mem (mkVMatch col) (vRunPositions col) _ _ m1 hm1
      obtain ⟨col2, hcol2, s2, len2, e2, ps2, _, hmk2, _, hsub2⟩ :=
        findColMatches_mem b _ _ m2 hm2
      rw [hmk1] at hp1
      rw [hmk2] at hp2
      have h1 := (mem_vRunPositions _ _ _ _).mp (hsub1 p hp1)
      have h2 := (mem_vRunPositions _ _ _ _).mp (hsub2 p hp2)
      have : col ≠ col2 := fun h => hcol (h ▸ hcol2)
      exact this (h1.1 ▸ h2.1 ▸ rfl)

/-- C2: every match returned by `findMatches` is a maximal run of ≥ 3
consecutive equal non-special tile values — its positions lie inside the
run's span, every cell of the span holds the match's (basic) emoji, and
the cells just before and after the span do not extend the run — and no
two returned matches of the same orientation overlap in positions. -/
theorem claim_C2_linear_matches (b : GameBoard) (hw : WellFormed b) :
    (∀ m ∈ findMatches b,
      3 ≤ m.length ∧ m.emoji.isSpecial = false ∧
      ((m.type = .horizontal ∧
        (∀ p ∈ m.positions, p ∈ hRunPositions m.row m.startCol m.length) ∧
        (∀ i < m.length, getEmoji b m.row (m.startCol + i) = some m.emoji) ∧
        getEmoji b m.row (m.startCol + m.length) ≠ some m.emoji ∧
        (0 < m.startCol → getEmoji b m.row (m.startCol - 1) ≠ some m.emoji)) ∨
       (m.type = .vertical ∧
        (∀ p ∈ m.positions, p ∈ vRunPositions m.col m.startRow m.length) ∧
        (∀ i < m.length, getEmoji b (m.startRow + i) m.col = some m.emoji) ∧
        getEmoji b (m.startRow + m.length) m.col ≠ some m.emoji ∧
        (0 < m.startRow → getEmoji b (m.startRow - 1) m.col ≠ some m.emoji)))) ∧
    List.Pairwise (fun m1 m2 => m1.type = m2.type →
      ∀ p ∈ m1.positions, p ∉ m2.positions) (findMatches b) := by
  constructor
  · intro m hm
    rcases List.mem_append.mp hm with hh | hv
    · obtain ⟨row, _, s, len, e, ps, hrun, hmk, hne, hsub⟩ :=
        findRowMatches_mem b _ _ m hh
      have hsound := scanLineAux_sound (fun c => getEmoji b row c) b.size b.size 0
        (s, len, e) hrun
      subst hmk
      refine ⟨hsound.2.1, hsound.2.2.2.1, Or.inl ⟨rfl, hsub, ?_, ?_, ?_⟩⟩
      · intro i hi
        exact hsound.2.2.2.2.1 i hi
      · intro hcon
        by_cases hin : s + len < b.size
        · exact hsound.2.2.2.2.2.1 ⟨hin, hcon⟩
        · rw [getEmoji, if_neg (fun hh' => hin hh'.2)] at hcon
          exact Option.noConfusion hcon
      · intro hpos
        exact hsound.2.2.2.2.2.2 hpos
    · obtain ⟨col, _, s, len, e, ps, hrun, hmk, hne, hsub⟩ :=
        findColMatches_mem b _ _ m hv
      have hsound := scanLineAux_sound (fun r => getEmoji b r col) b.size b.size 0
        (s, len, e) hrun
      subst hmk
      refine ⟨hsound.2.1, hsound.2.2.2.1, Or.inr ⟨rfl, hsub, ?_, ?_, ?_⟩⟩
      · intro i hi
        exact hsound.2.2.2.2.1 i hi
      · intro hcon
        by_cases hin : s + len < b.size
        · exact hsound.2.2.2.2.2.1 ⟨hin, hcon⟩
        · rw [getEmoji, if_neg (fun hh' => hin hh'.1)] at hcon
          exact Option.noConfusion hcon
      · intro hpos
        exact hsound.2.2.2.2.2.2 hpos
  · rw [findMatches, List.pairwise_append]
    refine ⟨?_, ?_, ?_⟩
    · refine List.Pairwise.imp ?_
        (findRowMatches_pairwise b (List.range b.size) [] (List.nodup_range _))
      intro m1 m2 hdisj _
      exact hdisj
    · refine List.Pairwise.imp ?_
        (findColMatches_pairwise b (List.range b.size)
          (findRowMatches b (List.range b.size) []).2 (List.nodup_range _))
      intro m1 m2 hdisj _
      exact hdisj
    · intro m1 hm1 m2 hm2 htype
      obtain ⟨_, _, _, _, _, _, _, hmk1, _, _⟩ := findRowMatches_mem b _ _ m1 hm1
      obtain ⟨_, _, _, _, _, _, _, hmk2, _, _⟩ := findColMatches_mem b _ _ m2 hm2
      rw [hmk1, hmk2] at htype
      exact absurd htype (by simp [mkHMatch, mkVMatch])

/-- A concrete board with one horizontal and one vertical run, witness
input for C2. -/
def witnessBoardC2 : GameBoard :=
  { size := 4
    grid :=
      [[some (.basic 0), some (.basic 0), some (.basic 0), some (.basic 1)],
       [some (.basic 2), some (.basic 3), some (.basic 4), some (.basic 5)],
       [some (.basic 3), some (.basic 4), some (.basic 5), some (.basic 2)],
       [some (.basic 4), some (.basic 5), some (.basic 2), some (.basic 3)]] }

/-- Witness for C2 on a concrete board: every reported match has length
≥ 3 and a non-special emoji, and the reported matches are pairwise
non-overlapping per orientation. -/
theorem claim_C2_linear_matches_witness :
    WellFormed witnessBoardC2 ∧
    (∀ m ∈ findMatches witnessBoardC2, 3 ≤ m.length ∧ m.emoji.isSpecial = false) ∧
    List.Pairwise (fun m1 m2 => m1.type = m2.type →
      ∀ p ∈ m1.positions, p ∉ m2.positions) (findMatches witnessBoardC2) := by
  have h := claim_C2_linear_matches witnessBoardC2 (by decide)
  exact ⟨by decide, fun m hm => ⟨(h.1 m hm).1, (h.1 m hm).2.1⟩, h.2⟩

theorem getEmoji_some_bounds (b : GameBoard) (row col : Nat) (e : Emoji)
    (h : getEmoji b row col = some e) : row < b.size ∧ col < b.size := by
  rw [getEmoji] at h
  split at h
  · assumption
  · exact Option.noConfusion h

/-- In the horizontal phase no position is ever filtered out: the
visited set starts empty, same-row runs are disjoint, and other rows
contribute positions with a different row index.  Hence every
horizontal match keeps its full run as positions. -/
theorem findRowMatches_full (b : GameBoard) :
    ∀ rows visited, rows.Nodup →
      (∀ q ∈ visited, ∀ row ∈ rows, q.row ≠ row) →
      ∀ m ∈ (findRowMatches b rows visited).1,
        ∃ row ∈ rows, ∃ s len e,
          (s, len, e) ∈ scanLine (fun c => getEmoji b row c) b.size ∧
          m = mkHMatch row s len e (hRunPositions row s len) := by
  intro rows
  induction rows with
  | nil => intro visited _ _ m hm; simp [findRowMatches] at hm
  | cons row rest ih =>
    intro visited hnd hvis m hm
    obtain ⟨hrow, hrest⟩ := List.nodup_cons.mp hnd
    simp only [findRowMatches] at hm
    rcases List.mem_append.mp hm with hblk | hrec
    · obtain ⟨s, len, e, hrun, hmk⟩ :=
        emitRuns_full (mkHMatch row) (hRunPositions row) (hRunPositions_nodup row)
          (hRunPositions_disj row) _ _ (scanLineAux_sorted _ _ _ _)
          (by
            intro r hr p hp hpv
            have := ((mem_hRunPositions _ _ _ _).mp hp).1
            exact hvis p hpv row (List.mem_cons_self _ _) this)
          m hblk
      exact ⟨row, List.mem_cons_self _ _, s, len, e, hrun, hmk⟩
    · obtain ⟨row', hrow', hres⟩ := ih _ hrest
        (by
          intro q hq row2 hrow2
          rcases emitRuns_snd_subset (mkHMatch row) (hRunPositions row) _ _ q hq with
            h | ⟨r, _, hrp⟩
          · exact hvis q h row2 (List.mem_cons_of_mem _ hrow2)
          · have hqrow := ((mem_hRunPositions _ _ _ _).mp hrp).1
            rw [hqrow]
            exact fun hcon => hrow (hcon ▸ hrow2))
        m hrec
      exact ⟨row', List.mem_cons_of_mem _ hrow', hres⟩

/-- A match of `findMatches` tagged horizontal comes from the
horizontal phase. -/
theorem findMatches_horizontal_phase (b : GameBoard) (m : Match)
    (hm : m ∈ findMatches b) (ht : m.type = .horizontal) :
    m ∈ (findRowMatches b (List.range b.size) []).1 := by
  rcases List.mem_append.mp hm with hh | hv
  · exact hh
  · exfalso
    obtain ⟨_, _, _, _, _, _, _, hmk, _, _⟩ := findColMatches_mem b _ _ m hv
    rw [hmk] at ht
    simp [mkVMatch] at ht

/-- Every horizontal match of `findMatches` carries its full run. -/
theorem findMatches_horizontal_full (b : GameBoard) (m : Match)
    (hm : m ∈ findMatches b) (ht : m.type = .horizontal) :
    ∃ row ∈ List.range b.size, ∃ s len e,
      (s, len, e) ∈ scanLine (fun c => getEmoji b row c) b.size ∧
      m = mkHMatch row s len e (hRunPositions row s len) :=
  findRowMatches_full b (List.range b.size) [] (List.nodup_range _)
    (by intro q hq; simp at hq) m (findMatches_horizontal_phase b m hm ht)

/-- Positions of linear matches are in bounds. -/
theorem findMatches_positions_bounds (b : GameBoard) (m : Match)
    (hm : m ∈ findMatches b) : ∀ p ∈ m.positions, p.row < b.size ∧ p.col < b.size := by
  intro p hp
  rcases List.mem_append.mp hm with hh | hv
  · obtain ⟨row, _, s, len, e, ps, hrun, hmk, _, hsub⟩ := findRowMatches_mem b _ _ m hh
    have hsound := scanLineAux_sound (fun c => getEmoji b row c) b.size b.size 0
      (s, len, e) hrun
    dsimp only at hsound
    rw [hmk] at hp
    have hpr := (mem_hRunPositions _ _ _ _).mp (hsub p hp)
    have hcell := hsound.2.2.2.2.1 (p.col - s) (by omega)
    have harith : s + (p.col - s) = p.col := by omega
    rw [harith] at hcell
    have := getEmoji_some_bounds b row p.col e hcell
    exact ⟨by rw [hpr.1]; exact this.1, this.2⟩
  · obtain ⟨col, _, s, len, e, ps, hrun, hmk, _, hsub⟩ := findColMatches_mem b _ _ m hv
    have hsound := scanLineAux_sound (fun r => getEmoji b r col) b.size b.size 0
      (s, len, e) hrun
    dsimp only at hsound
    rw [hmk] at hp
    have hpr := (mem_vRunPositions _ _ _ _).mp (hsub p hp)
    have hcell := hsound.2.2.2.2.1 (p.row - s) (by omega)
    have harith : s + (p.row - s) = p.row := by omega
    rw [harith] at hcell
    have := getEmoji_some_bounds b p.row col e hcell
    exact ⟨this.1, by rw [hpr.1]; exact this.2⟩

/-- C10: the position chosen for every special-tile creation record is
an element of the source match's positions (the entry at index
`floor(positions.length / 2)` for linear matches, the recorded
intersection for shaped matches) and is in bounds, so the bounds check
in `GameBoard.createSpecialEmoji` accepts it. -/
theorem claim_C10_special_positions (b : GameBoard) (hw : WellFormed b) :
    ∀ rec ∈ createSpecialEmojis (findMatches b ++ findShapedMatches (findMatches b)),
      rec.position ∈ rec.originalMatch.positions ∧
      rec.position.row < b.size ∧ rec.position.col < b.size ∧
      isValidPosition b rec.position.row rec.position.col = true ∧
      (rec.originalMatch.type = .shaped → rec.position = rec.originalMatch.intersection) ∧
      (rec.originalMatch.type ≠ .shaped →
        rec.originalMatch.positions[rec.originalMatch.positions.length / 2]? =
          some rec.position) := by
  intro rec hrec
  obtain ⟨m, hmem, hsp⟩ := List.mem_filterMap.mp hrec
  by_cases hsh : m.type = .shaped
  · have hrec_eq : rec = ⟨.bomb, m.intersection, m⟩ := by
      rw [specialFor, if_pos hsh] at hsp
      exact (Option.some_inj.mp hsp).symm
    have hmsh : m ∈ findShapedMatches (findMatches b) := by
      rcases List.mem_append.mp hmem with h | h
      · exfalso
        rcases List.mem_append.mp h with hh | hv
        · obtain ⟨_, _, _, _, _, _, _, hmk, _, _⟩ := findRowMatches_mem b _ _ m hh
          rw [hmk] at hsh
          simp [mkHMatch] at hsh
        · obtain ⟨_, _, _, _, _, _, _, hmk, _, _⟩ := findColMatches_mem b _ _ m hv
          rw [hmk] at hsh
          simp [mkVMatch] at hsh
      · exact h
    simp only [findShapedMatches, List.mem_flatMap, List.mem_map, List.mem_filter] at hmsh
    obtain ⟨hmHM, ⟨hhm_mem, hhm_t⟩, vm, ⟨⟨hvm_mem, hvm_t⟩, hint⟩, hmeq⟩ := hmsh
    have hhm_type : hmHM.type = .horizontal := by
      simpa using hhm_t
    obtain ⟨row, hrowr, s, len, e, hrun, hmkH⟩ :=
      findMatches_horizontal_full b hmHM hhm_mem hhm_type
    have hsound := scanLineAux_sound (fun c => getEmoji b row c) b.size b.size 0
      (s, len, e) hrun
    dsimp only at hsound
    have hlen3 : 3 ≤ len := hsound.2.1
    simp only [intersectsMatch, Bool.and_eq_true, decide_eq_true_eq] at hint
    have hsc : hmHM.startCol ≤ vm.col := hint.1.1.2
    have hec : vm.col ≤ hmHM.endCol := hint.1.2
    rw [hmkH] at hsc hec
    have hcol_lt : vm.col < s + len := by
      have : (mkHMatch row s len e (hRunPositions row s len)).endCol = s + len - 1 := rfl
      rw [this] at hec
      have : (mkHMatch row s len e (hRunPositions row s len)).startCol = s := rfl
      rw [this] at hsc
      omega
    have hsc' : s ≤ vm.col := hsc
    have hrow_eq : hmHM.row = row := by rw [hmkH]; rfl
    have hinter_val : (mkShapedMatch hmHM vm).intersection = ⟨row, vm.col⟩ := by
      show (⟨hmHM.row, vm.col⟩ : Pos) = ⟨row, vm.col⟩
      rw [hrow_eq]
    have hip : (⟨row, vm.col⟩ : Pos) ∈ hmHM.positions := by
      rw [hmkH]
      show (⟨row, vm.col⟩ : Pos) ∈ hRunPositions row s len
      rw [mem_hRunPositions]
      exact ⟨rfl, hsc', hcol_lt⟩
    have hinter_mem : (mkShapedMatch hmHM vm).intersection ∈ (mkShapedMatch hmHM vm).positions := by
      rw [hinter_val]
      show (⟨row, vm.col⟩ : Pos) ∈ dedupPositions (hmHM.positions ++ vm.positions)
      rw [dedupPositions, mem_dedupAux]
      exact ⟨List.mem_append.mpr (Or.inl hip), by simp⟩
    have hbound_row : row < b.size := by
      have hcell := hsound.2.2.2.2.1 0 (by omega)
      rw [Nat.add_zero] at hcell
      exact (getEmoji_some_bounds b row s e hcell).1
    have hbound_col : vm.col < b.size := by
      have hcell := hsound.2.2.2.2.1 (vm.col - s) (by omega)
      have harith : s + (vm.col - s) = vm.col := by omega
      rw [harith] at hcell
      exact (getEmoji_some_bounds b row vm.col e hcell).2
    subst hmeq
    rw [hrec_eq]
    refine ⟨hinter_mem, ?_, ?_, ?_, fun _ => rfl, fun hcon => absurd rfl hcon⟩
    · rw [hinter_val]
      exact hbound_row
    · rw [hinter_val]
      exact hbound_col
    · rw [hinter_val]
      simp [isValidPosition, hbound_row, hbound_col]
  · have hmem' : m ∈ findMatches b := by
      rcases List.mem_append.mp hmem with h | h
      · exact h
      · exfalso
        simp only [findShapedMatches, List.mem_flatMap, List.mem_map, List.mem_filter] at h
        obtain ⟨_, _, _, _, hmeq⟩ := h
        rw [← hmeq] at hsh
        exact hsh rfl
    rw [specialFor, if_neg hsh] at hsp
    have hmain : ∃ p, getMiddlePosition m = some p ∧ rec.position = p ∧ rec.originalMatch = m := by
      split at hsp
      · obtain ⟨p, hp, hrec_eq⟩ := Option.map_eq_some'.mp hsp
        exact ⟨p, hp, by rw [← hrec_eq], by rw [← hrec_eq]⟩
      · split at hsp
        · obtain ⟨p, hp, hrec_eq⟩ := Option.map_eq_some'.mp hsp
          exact ⟨p, hp, by rw [← hrec_eq], by rw [← hrec_eq]⟩
        · exact Option.noConfusion hsp
    obtain ⟨p, hmid, hrp, hro⟩ := hmain
    have hidx : m.positions[m.positions.length / 2]? = some p := by
      rw [getMiddlePosition] at hmid
      split at hmid
      · exact Option.noConfusion hmid
      · exact hmid
    have hpmem : p ∈ m.positions := by
      have := List.getElem?_eq_some_iff.mp hidx
      obtain ⟨hlt, hval⟩ := this
      rw [← hval]
      exact List.getElem_mem hlt
    have hbounds := findMatches_positions_bounds b m hmem' p hpmem
    rw [hro, hrp]
    refine ⟨hpmem, hbounds.1, hbounds.2, ?_, fun hcon => absurd hcon hsh, fun _ => hidx⟩
    simp [isValidPosition, hbounds.1, hbounds.2]

/-- Witness for C10 on a concrete board containing a length-4 vertical
match and two shaped matches. -/
theorem claim_C10_special_positions_witness :
    WellFormed cexBoardC3 ∧
    ∀ rec ∈ createSpecialEmojis
        (findMatches cexBoardC3 ++ findShapedMatches (findMatches cexBoardC3)),
      rec.position ∈ rec.originalMatch.positions ∧
      isValidPosition cexBoardC3 rec.position.row rec.position.col = true :=
  ⟨by decide, fun rec hrec =>
    ⟨(claim_C10_special_positions cexBoardC3 (by decide) rec hrec).1,
     (claim_C10_special_positions cexBoardC3 (by decide) rec hrec).2.2.2.1⟩⟩

/-- The moves recorded at one cell, as described by the spec: the right
and down neighbor swaps that are in range and whose speculative swap
leaves a board on which `hasMatches` holds. -/
def movesFoundAt (b : GameBoard) (row col : Nat) : List MoveRec :=
  (if col < b.size - 1 then
    (if hasMatches (swapEmojis b ⟨row, col⟩ ⟨row, col + 1⟩).1 then
      [⟨⟨row, col⟩, ⟨row, col + 1⟩⟩] else []) else []) ++
  (if row < b.size - 1 then
    (if hasMatches (swapEmojis b ⟨row, col⟩ ⟨row + 1, col⟩).1 then
      [⟨⟨row, col⟩, ⟨row + 1, col⟩⟩] else []) else [])

theorem checkMoveStep_spec (b : GameBoard) (hw : WellFormed b) (p1 p2 : Pos)
    (acc : List MoveRec) :
    checkMoveStep b p1 p2 acc =
      (b, acc ++ (if hasMatches (swapEmojis b p1 p2).1 then [⟨p1, p2⟩] else [])) := by
  simp only [checkMoveStep]
  rw [swapEmojis_swapEmojis b p1 p2 hw]
  by_cases h : hasMatches (swapEmojis b p1 p2).1
  · simp [h]
  · simp [h]

theorem possibleMovesCell_spec (b : GameBoard) (hw : WellFormed b) (row col : Nat)
    (acc : List MoveRec) :
    possibleMovesCell b row col acc = (b, acc ++ movesFoundAt b row col) := by
  simp only [possibleMovesCell, movesFoundAt]
  by_cases hcol : col < b.size - 1
  · rw [if_pos hcol, if_pos hcol, checkMoveStep_spec b hw]
    by_cases hrow : row < b.size - 1
    · rw [if_pos hrow, if_pos hrow, checkMoveStep_spec b hw]
      simp [List.append_assoc]
    · rw [if_neg hrow, if_neg hrow]
      simp
  · rw [if_neg hcol, if_neg hcol]
    by_cases hrow : row < b.size - 1
    · rw [if_pos hrow, if_pos hrow, checkMoveStep_spec b hw]
      simp
    · rw [if_neg hrow, if_neg hrow]
      simp

theorem possibleMovesCols_spec (b : GameBoard) (hw : WellFormed b) (row : Nat) :
    ∀ cols acc, possibleMovesCols b row cols acc =
      (b, acc ++ cols.flatMap (movesFoundAt b row)) := by
  intro cols
  induction cols with
  | nil => intro acc; simp [possibleMovesCols]
  | cons col rest ih =>
    intro acc
    simp only [possibleMovesCols]
    rw [possibleMovesCell_spec b hw]
    rw [ih]
    simp [List.append_assoc]

theorem possibleMovesRows_spec (b : GameBoard) (hw : WellFormed b) :
    ∀ rows acc, possibleMovesRows b rows acc =
      (b, acc ++ rows.flatMap (fun row =>
        (List.range b.size).flatMap (movesFoundAt b row))) := by
  intro rows
  induction rows with
  | nil => intro acc; simp [possibleMovesRows]
  | cons row rest ih =>
    intro acc
    simp only [possibleMovesRows]
    rw [possibleMovesCols_spec b hw]
    rw [ih]
    simp [List.append_assoc]

/-- `getPossibleMoves` enumerated: the board is restored after every
speculative swap, and the result is exactly the list of in-range
right/down swaps whose swapped board satisfies `hasMatches`. -/
theorem getPossibleMoves_eq (b : GameBoard) (hw : WellFormed b) :
    getPossibleMoves b = (List.range b.size).flatMap (fun row =>
      (List.range b.size).flatMap (movesFoundAt b row)) := by
  rw [getPossibleMoves, possibleMovesRows_spec b hw]
  simp

theorem getEmoji_cellAt (b : GameBoard) (row col : Nat) (e : Emoji)
    (h : getEmoji b row col = some e) :
    cellAt b row col = some e ∧ row < b.size ∧ col < b.size := by
  rw [getEmoji] at h
  split at h
  · rename_i hcond
    exact ⟨h, hcond⟩
  · exact Option.noConfusion h

theorem countRightH_ge_two (b : GameBoard) (row : Nat) (e : Option Emoji) (c : Nat)
    (h1 : c < b.size ∧ cellAt b row c = e) (h2 : c + 1 < b.size ∧ cellAt b row (c + 1) = e) :
    2 ≤ countRightH b row e b.size c := by
  obtain ⟨k, hk⟩ : ∃ k, b.size = (k + 1) + 1 := ⟨b.size - 2, by omega⟩
  rw [hk]
  rw [countRightH, if_pos h1, countRightH, if_pos h2]
  omega

theorem countDownV_ge_two (b : GameBoard) (col : Nat) (e : Option Emoji) (r : Nat)
    (h1 : r < b.size ∧ cellAt b r col = e) (h2 : r + 1 < b.size ∧ cellAt b (r + 1) col = e) :
    2 ≤ countDownV b col e b.size r := by
  obtain ⟨k, hk⟩ : ∃ k, b.size = (k + 1) + 1 := ⟨b.size - 2, by omega⟩
  rw [hk]
  rw [countDownV, if_pos h1, countDownV, if_pos h2]
  omega

theorem wouldCreateMatch_of_horizontal (b : GameBoard) (row col : Nat) (e : Option Emoji)
    (h : 3 ≤ 1 + countLeftH b row e col + countRightH b row e b.size (col + 1)) :
    wouldCreateMatch b row col e = true := by
  simp only [wouldCreateMatch]
  rw [if_pos h]

theorem wouldCreateMatch_of_vertical (b : GameBoard) (row col : Nat) (e : Option Emoji)
    (h : 3 ≤ 1 + countUpV b col e row + countDownV b col e b.size (row + 1)) :
    wouldCreateMatch b row col e = true := by
  simp only [wouldCreateMatch]
  split
  · rfl
  · simpa using h

/-- The bridge between the two match notions: whenever `findMatches`
reports a match, `hasMatches` (the `wouldCreateMatch` scan of board.js)
is also true.  The converse fails: `wouldCreateMatch` also counts equal
special — and `null` — cells. -/
theorem hasMatches_of_findMatches (b : GameBoard) (m : Match) (hm : m ∈ findMatches b) :
    hasMatches b = true := by
  rw [hasMatches]
  rw [List.any_eq_true]
  rcases List.mem_append.mp hm with hh | hv
  · obtain ⟨row, _, s, len, e, ps, hrun, _, _, _⟩ := findRowMatches_mem b _ _ m hh
    have hsound := scanLineAux_sound (fun c => getEmoji b row c) b.size b.size 0
      (s, len, e) hrun
    dsimp only at hsound
    have hc0 := getEmoji_cellAt b row s e (by simpa using hsound.2.2.2.2.1 0 (by omega))
    have hc1 := getEmoji_cellAt b row (s + 1) e (hsound.2.2.2.2.1 1 (by omega))
    have hc2 := getEmoji_cellAt b row (s + 2) e
      (by have := hsound.2.2.2.2.1 2 (by omega); simpa using this)
    refine ⟨row, List.mem_range.mpr hc0.2.1, ?_⟩
    rw [List.any_eq_true]
    refine ⟨s, List.mem_range.mpr hc0.2.2, ?_⟩
    apply wouldCreateMatch_of_horizontal
    have hge := countRightH_ge_two b row (some e) (s + 1)
      ⟨hc1.2.2, hc1.1⟩ ⟨by simpa using hc2.2.2, by simpa using hc2.1⟩
    rw [hc0.1]
    omega
  · obtain ⟨col, _, s, len, e, ps, hrun, _, _, _⟩ := findColMatches_mem b _ _ m hv
    have hsound := scanLineAux_sound (fun r => getEmoji b r col) b.size b.size 0
      (s, len, e) hrun
    dsimp only at hsound
    have hc0 := getEmoji_cellAt b s col e (by simpa using hsound.2.2.2.2.1 0 (by omega))
    have hc1 := getEmoji_cellAt b (s + 1) col e (hsound.2.2.2.2.1 1 (by omega))
    have hc2 := getEmoji_cellAt b (s + 2) col e
      (by have := hsound.2.2.2.2.1 2 (by omega); simpa using this)
    refine ⟨s, List.mem_range.mpr hc0.2.1, ?_⟩
    rw [List.any_eq_true]
    refine ⟨col, List.mem_range.mpr hc0.2.2, ?_⟩
    apply wouldCreateMatch_of_vertical
    have hge := countDownV_ge_two b col (some e) (s + 1)
      ⟨hc1.2.1, hc1.1⟩ ⟨by simpa using hc2.2.1, by simpa using hc2.1⟩
    rw [hc0.1]
    omega

/-- C7 amended: `getPossibleMoves` returns exactly the in-range right-
and down-neighbor swaps after which `hasMatches` holds; `hasMatches`
counts any line of three equal cell values — special and empty cells
included — so it is implied by, but not equivalent to, a `findMatches`
match.  The second conjunct gives the true half of the original claim:
a swap producing a `findMatches` match is always returned. -/
theorem claim_C7_possible_moves (b : GameBoard) (hw : WellFormed b) :
    (∀ mv, mv ∈ getPossibleMoves b ↔
      ∃ row col, row < b.size ∧ col < b.size ∧
        ((col + 1 < b.size ∧ mv = ⟨⟨row, col⟩, ⟨row, col + 1⟩⟩ ∧
            hasMatches (swapEmojis b ⟨row, col⟩ ⟨row, col + 1⟩).1 = true) ∨
         (row + 1 < b.size ∧ mv = ⟨⟨row, col⟩, ⟨row + 1, col⟩⟩ ∧
            hasMatches (swapEmojis b ⟨row, col⟩ ⟨row + 1, col⟩).1 = true))) ∧
    (∀ b' : GameBoard, ∀ m ∈ findMatches b', hasMatches b' = true) := by
  refine ⟨?_, fun b' m hm => hasMatches_of_findMatches b' m hm⟩
  intro mv
  rw [getPossibleMoves_eq b hw]
  simp only [List.mem_flatMap, List.mem_range]
  constructor
  · rintro ⟨row, hrow, col, hcol, hmem⟩
    refine ⟨row, col, hrow, hcol, ?_⟩
    simp only [movesFoundAt, List.mem_append] at hmem
    rcases hmem with h | h
    · left
      split at h
      · rename_i hc
        split at h
        · rename_i hh
          simp only [List.mem_singleton] at h
          exact ⟨by omega, h, hh⟩
        · simp at h
      · simp at h
    · right
      split at h
      · rename_i hc
        split at h
        · rename_i hh
          simp only [List.mem_singleton] at h
          exact ⟨by omega, h, hh⟩
        · simp at h
      · simp at h
  · rintro ⟨row, col, hrow, hcol, hcase⟩
    refine ⟨row, hrow, col, hcol, ?_⟩
    simp only [movesFoundAt, List.mem_append]
    rcases hcase with ⟨hc, hmv, hh⟩ | ⟨hc, hmv, hh⟩
    · left
      rw [if_pos (by omega : col < b.size - 1), if_pos hh]
      simp [hmv]
    · right
      rw [if_pos (by omega : row < b.size - 1), if_pos hh]
      simp [hmv]

/-- A board with three bombs: swapping (0,2) and (1,2) lines up the
bombs in row 0. -/
def cexBoardC7 : GameBoard :=
  { size := 3
    grid :=
      [[some .bomb, some .bomb, some (.basic 0)],
       [some (.basic 1), some (.basic 2), some .bomb],
       [some (.basic 3), some (.basic 4), some (.basic 5)]] }

/-- Counterexample to C7 as stated: on `cexBoardC7` the move
`(0,2)-(1,2)` is returned by `getPossibleMoves` (the swap lines up three
bomb tiles, which `wouldCreateMatch` counts), yet after the swap the
MatchFinder reports no match at all — special tiles match nothing for
`findMatches`, so the returned move produces zero linear and zero shaped
matches. -/
theorem claim_C7_counterexample :
    (⟨⟨0, 2⟩, ⟨1, 2⟩⟩ : MoveRec) ∈ getPossibleMoves cexBoardC7 ∧
    findMatches (swapEmojis cexBoardC7 ⟨0, 2⟩ ⟨1, 2⟩).1 = [] ∧
    findShapedMatches (findMatches (swapEmojis cexBoardC7 ⟨0, 2⟩ ⟨1, 2⟩).1) = [] := by
  decide

/-- Witness for the amended C7 at the same concrete board. -/
theorem claim_C7_possible_moves_witness :
    WellFormed cexBoardC7 ∧
    ((⟨⟨0, 2⟩, ⟨1, 2⟩⟩ : MoveRec) ∈ getPossibleMoves cexBoardC7 ↔
      ∃ row col, row < cexBoardC7.size ∧ col < cexBoardC7.size ∧
        ((col + 1 < cexBoardC7.size ∧
            (⟨⟨0, 2⟩, ⟨1, 2⟩⟩ : MoveRec) = ⟨⟨row, col⟩, ⟨row, col + 1⟩⟩ ∧
            hasMatches (swapEmojis cexBoardC7 ⟨row, col⟩ ⟨row, col + 1⟩).1 = true) ∨
         (row + 1 < cexBoardC7.size ∧
            (⟨⟨0, 2⟩, ⟨1, 2⟩⟩ : MoveRec) = ⟨⟨row, col⟩, ⟨row + 1, col⟩⟩ ∧
            hasMatches (swapEmojis cexBoardC7 ⟨row, col⟩ ⟨row + 1, col⟩).1 = true))) :=
  ⟨by decide, (claim_C7_possible_moves cexBoardC7 (by decide)).1 ⟨⟨0, 2⟩, ⟨1, 2⟩⟩⟩

/-- One entry of `EmojiCrushGame.moveHistory`, as pushed by `saveMove`:
a snapshot of the grid (`board.getState()`), the swapped positions, and
the scalar session fields.  Note the stored `moves` field is
`this.moves + 1` at the time of the call. -/
structure MoveEntry where
  boardState : List (List (Option Emoji))
  pos1 : Pos
  pos2 : Pos
  score : Nat
  moves : Nat
  comboMultiplier : Nat
deriving DecidableEq, Repr

/-- The part of `EmojiCrushGame`'s mutable state that the swap/undo
logic touches: the board, the score, the remaining moves, the move
history, and the `MatchDetector` fields `comboMultiplier` and
`lastMatches`. -/
structure GameState where
  board : GameBoard
  score : Nat
  moves : Nat
  moveHistory : List MoveEntry
  comboMultiplier : Nat
  lastMatches : List Match
deriving Repr

/-- Mirrors `GameBoard.getState`: in JS a fresh deep copy of the grid;
in this pure model the copy is the grid value itself. -/
def getState (b : GameBoard) : List (List (Option Emoji)) := b.grid

/-- Mirrors `GameBoard.setState` (again, the deep copy is the value). -/
def setState (b : GameBoard) (st : List (List (Option Emoji))) : GameBoard :=
  { b with grid := st }

/-- Mirrors `EmojiCrushGame.saveMove`: push the snapshot entry (with
`moves + 1`, since the caller has not decremented yet), then drop the
oldest entry if the history now exceeds 5. -/
def saveMove (s : GameState) (p1 p2 : Pos) : GameState :=
  let entry : MoveEntry :=
    ⟨getState s.board, p1, p2, s.score, s.moves + 1, s.comboMultiplier⟩
  let hist := s.moveHistory ++ [entry]
  { s with moveHistory := if 5 < hist.length then hist.tail else hist }

/-- Mirrors `EmojiCrushGame.undoLastMove`: pop the newest entry and
restore the grid, score, move count and combo multiplier from it;
returns `false` on an empty history. -/
def undoLastMove (s : GameState) : GameState × Bool :=
  match s.moveHistory.getLast? with
  | none => (s, false)
  | some e =>
    ({ s with
        moveHistory := s.moveHistory.dropLast
        board := setState s.board e.boardState
        score := e.score
        moves := e.moves
        comboMultiplier := e.comboMultiplier }, true)

/-- Outcome of the validation phase of `EmojiCrushGame.attemptSwap`. -/
inductive SwapResult where
  | rejected (s : GameState)
  | accepted (s : GameState)
deriving Repr

/-- The validation phase of `EmojiCrushGame.attemptSwap` (everything up
to the cascade loop): refuse when the move budget is empty; otherwise
swap tentatively, scan for linear and shaped matches, and on zero
matches swap back and reject; on success save the undo snapshot (of the
already-swapped board) and decrement the budget.  The cascade loop that
follows on acceptance mutates the board further with random refills and
is outside this claim's scope. -/
def attemptSwapValidate (s : GameState) (p1 p2 : Pos) : SwapResult :=
  if s.moves = 0 then .rejected s
  else
    let b1 := (swapEmojis s.board p1 p2).1
    let ms := findMatches b1
    let shaped := findShapedMatches ms
    if (ms ++ shaped).length = 0 then
      .rejected { s with board := (swapEmojis b1 p1 p2).1, lastMatches := ms }
    else
      let s1 := saveMove { s with board := b1, lastMatches := ms } p1 p2
      .accepted { s1 with moves := s1.moves - 1 }

/-- C5: when the move budget is zero, or the tentative swap produces no
matches (linear plus shaped), `attemptSwap` reports failure and leaves
the grid, the move budget, the score and the move history unchanged. -/
theorem claim_C5_reject_unchanged (s : GameState) (hw : WellFormed s.board) (p1 p2 : Pos)
    (h : s.moves = 0 ∨
      (findMatches (swapEmojis s.board p1 p2).1 ++
        findShapedMatches (findMatches (swapEmojis s.board p1 p2).1)).length = 0) :
    ∃ s', attemptSwapValidate s p1 p2 = .rejected s' ∧
      s'.board = s.board ∧ s'.moves = s.moves ∧ s'.score = s.score ∧
      s'.moveHistory = s.moveHistory := by
  by_cases hm : s.moves = 0
  · refine ⟨s, ?_, rfl, rfl, rfl, rfl⟩
    rw [attemptSwapValidate, if_pos hm]
  · have hz : (findMatches (swapEmojis s.board p1 p2).1 ++
        findShapedMatches (findMatches (swapEmojis s.board p1 p2).1)).length = 0 := by
      rcases h with h | h
      · exact absurd h hm
      · exact h
    have hresult := swapEmojis_swapEmojis s.board p1 p2 hw
    rw [attemptSwapValidate, if_neg hm]
    simp only
    rw [if_pos hz]
    exact ⟨_, rfl, hresult, rfl, rfl, rfl⟩

/-- A concrete state used as witness input for C5: one remaining move,
and a swap that creates no match. -/
def witnessStateC5 : GameState :=
  { board := witnessBoardC6
    score := 120
    moves := 1
    moveHistory := []
    comboMultiplier := 1
    lastMatches := [] }

/-- Witness for C5 at a concrete rejected swap. -/
theorem claim_C5_reject_unchanged_witness :
    ∃ s', attemptSwapValidate witnessStateC5 ⟨1, 0⟩ ⟨1, 1⟩ = .rejected s' ∧
      s'.board = witnessStateC5.board ∧ s'.moves = witnessStateC5.moves ∧
      s'.score = witnessStateC5.score ∧ s'.moveHistory = witnessStateC5.moveHistory :=
  claim_C5_reject_unchanged witnessStateC5 (by decide) ⟨1, 0⟩ ⟨1, 1⟩ (by decide)

/-- C8: undoing restores the score, the move count, the combo
multiplier and the full grid contents exactly to the values captured in
the newest history entry and pops that entry; and the history is capped
at 5 entries — pushing onto a full history evicts the oldest entry. -/
theorem claim_C8_undo_and_history_cap (s : GameState) (p1 p2 : Pos) :
    (∀ h e, s.moveHistory = h ++ [e] →
      ∃ s', undoLastMove s = (s', true) ∧
        s'.board.grid = e.boardState ∧ s'.score = e.score ∧ s'.moves = e.moves ∧
        s'.comboMultiplier = e.comboMultiplier ∧ s'.moveHistory = h) ∧
    (s.moveHistory.length ≤ 5 → (saveMove s p1 p2).moveHistory.length ≤ 5) ∧
    (s.moveHistory.length = 5 →
      (saveMove s p1 p2).moveHistory = s.moveHistory.tail ++
        [⟨getState s.board, p1, p2, s.score, s.moves + 1, s.comboMultiplier⟩]) ∧
    (s.moveHistory.length < 5 →
      (saveMove s p1 p2).moveHistory = s.moveHistory ++
        [⟨getState s.board, p1, p2, s.score, s.moves + 1, s.comboMultiplier⟩]) := by
  refine ⟨?_, ?_, ?_, ?_⟩
  · intro h e hist
    rw [undoLastMove, hist, List.getLast?_concat]
    refine ⟨_, rfl, rfl, rfl, rfl, rfl, ?_⟩
    simp only
    rw [List.dropLast_concat]
  · intro hle
    simp only [saveMove]
    split
    · rename_i hgt
      simp only [List.length_tail, List.length_append]
      simp at hgt ⊢
      omega
    · rename_i hgt
      simp only [List.length_append] at hgt ⊢
      omega
  · intro h5
    simp only [saveMove]
    rw [if_pos (by simp [h5])]
    cases hh : s.moveHistory with
    | nil => rw [hh] at h5; simp at h5
    | cons a t => simp
  · intro hlt
    simp only [saveMove]
    rw [if_neg (by simp; omega)]

/-- A concrete state whose history holds 5 entries, witness input for
C8. -/
def witnessStateC8 : GameState :=
  { board := witnessBoardC6
    score := 250
    moves := 7
    moveHistory :=
      [⟨[[none]], ⟨0, 0⟩, ⟨0, 1⟩, 10, 1, 1⟩,
       ⟨[[none]], ⟨0, 0⟩, ⟨0, 1⟩, 20, 2, 1⟩,
       ⟨[[none]], ⟨0, 0⟩, ⟨0, 1⟩, 30, 3, 2⟩,
       ⟨[[none]], ⟨0, 0⟩, ⟨0, 1⟩, 40, 4, 2⟩,
       ⟨[[none]], ⟨0, 0⟩, ⟨0, 1⟩, 50, 5, 3⟩]
    comboMultiplier := 2
    lastMatches := [] }

/-- Witness for C8: undo pops and restores the newest entry, and a 6th
push evicts the oldest entry. -/
theorem claim_C8_undo_and_history_cap_witness :
    (∃ s', undoLastMove witnessStateC8 = (s', true) ∧
      s'.board.grid = [[none]] ∧ s'.score = 50 ∧ s'.moves = 5 ∧
      s'.comboMultiplier = 3 ∧ s'.moveHistory = witnessStateC8.moveHistory.dropLast) ∧
    (saveMove witnessStateC8 ⟨1, 0⟩ ⟨1, 1⟩).moveHistory =
      witnessStateC8.moveHistory.tail ++
        [⟨getState witnessStateC8.board, ⟨1, 0⟩, ⟨1, 1⟩, 250, 8, 2⟩] := by
  constructor
  · obtain ⟨s', hs', hb, hsc, hmv, hcm, hh⟩ :=
      (claim_C8_undo_and_history_cap witnessStateC8 ⟨1, 0⟩ ⟨1, 1⟩).1
        witnessStateC8.moveHistory.dropLast ⟨[[none]], ⟨0, 0⟩, ⟨0, 1⟩, 50, 5, 3⟩ (by decide)
    exact ⟨s', hs', hb, hsc, hmv, hcm, hh⟩
  · exact (claim_C8_undo_and_history_cap witnessStateC8 ⟨1, 0⟩ ⟨1, 1⟩).2.2.1 (by decide)

/-- Mirrors `GameBoard.getSpecialType` applied to a `getEmoji` result:
`null` for a missing or basic emoji, the special kind otherwise. -/
def getSpecialTypeOf : Option Emoji → Option SpecialKind
  | some .striped => some .striped
  | some .bomb => some .bomb
  | some .rainbow => some .rainbow
  | _ => none

/-- Mirrors `GameBoard.isSpecialEmoji` applied to a `getEmoji` result
(`null` is not special). -/
def isSpecialEmojiOpt : Option Emoji → Bool
  | some e => e.isSpecial
  | none => false

/-- The ten basic emoji kinds of `GameBoard.emojis`. -/
def boardEmojis : List Emoji := (List.range 10).map Emoji.basic

/-- Mirrors `GameBoard.getSpecialEmojiEffect`.  The JS code draws from
`Math.random()` at activation time; here the randomness is supplied
explicitly: `coin` decides the striped row/column choice, and `pick`
(reduced modulo the number of candidates) selects the rainbow target —
ranging over all `coin`/`pick` values ranges over exactly the outcomes
the JS can produce.  The bomb effect is deterministic: the 3×3
neighborhood clipped to the board, in the JS iteration order. -/
def getSpecialEmojiEffect (b : GameBoard) (row col : Nat) (t : SpecialKind)
    (coin : Bool) (pick : Nat) : List Pos :=
  match t with
  | .striped =>
    if coin then (List.range b.size).map fun c => ⟨row, c⟩
    else (List.range b.size).map fun r => ⟨r, col⟩
  | .bomb =>
    ([-1, 0, 1] : List Int).flatMap fun dr =>
      ([-1, 0, 1] : List Int).flatMap fun dc =>
        let r := (row : Int) + dr
        let c := (col : Int) + dc
        if 0 ≤ r ∧ r < b.size ∧ 0 ≤ c ∧ c < b.size then [⟨r.toNat, c.toNat⟩] else []
  | .rainbow =>
    let availableEmojis := boardEmojis.filter fun e =>
      (List.range b.size).any fun r =>
        (List.range b.size).any fun c => decide (cellAt b r c = some e)
    if availableEmojis.length = 0 then []
    else
      let target := availableEmojis.getD (pick % availableEmojis.length) (.basic 0)
      (List.range b.size).flatMap fun r =>
        (List.range b.size).flatMap fun c =>
          if cellAt b r c = some target then [(⟨r, c⟩ : Pos)] else []

/-- The chain-reaction loop inside `MatchDetector.processSpecialEmoji`:
walk the affected positions; each position holding a special emoji other
than the origin is activated through `rec` (the fueled recursion one
level down), threading the randomness counter `k`; `none` propagates an
out-of-fuel signal. -/
def chainStep (b : GameBoard) (rec : Nat → Nat → Nat → Option (List Pos × Nat))
    (originRow originCol : Nat) : List Pos → Nat → Option (List Pos × Nat)
  | [], k => some ([], k)
  | p :: rest, k =>
    if isSpecialEmojiOpt (getEmoji b p.row p.col) ∧ (p.row ≠ originRow ∨ p.col ≠ originCol) then
      match rec p.row p.col k with
      | none => none
      | some (cs, k1) =>
        match chainStep b rec originRow originCol rest k1 with
        | none => none
        | some (cs2, k2) => some (cs ++ cs2, k2)
    else chainStep b rec originRow originCol rest k

/-- Fueled translation of `MatchDetector.processSpecialEmoji`, which in
the source recurses with no cycle guard or depth cap.  `fuel` bounds the
recursion depth; `ora` supplies the randomness consumed at step `k`; the
result is `none` exactly when the recursion exceeds the given depth, so
a board on which the result is `none` for every fuel is a board on which
the source recursion never terminates. -/
def processSpecialEmojiFuel (b : GameBoard) (ora : Nat → Bool × Nat) :
    Nat → Nat → Nat → Nat → Option (List Pos × Nat)
  | 0, _, _, _ => none
  | fuel + 1, row, col, k =>
    match getSpecialTypeOf (getEmoji b row col) with
    | none => some ([], k)
    | some t =>
      match chainStep b (processSpecialEmojiFuel b ora fuel) row col
          (getSpecialEmojiEffect b row col t (ora k).1 (ora k).2) (k + 1) with
      | none => none
      | some (cs, k1) =>
        some (getSpecialEmojiEffect b row col t (ora k).1 (ora k).2 ++ cs, k1)

/-- A board with two adjacent bombs at (0,0) and (0,1); each bomb's 3×3
effect contains the other bomb's position. -/
def cexBoardC9 : GameBoard :=
  { size := 3
    grid :=
      [[some .bomb, some .bomb, some (.basic 0)],
       [some (.basic 1), some (.basic 2), some (.basic 3)],
       [some (.basic 4), some (.basic 5), some (.basic 6)]] }

/-- On the two-bomb board the activation recursion overruns any depth
budget: activating (0,0) reaches (0,1) and vice versa, forever. -/
theorem processSpecialC9_aux (ora : Nat → Bool × Nat) :
    ∀ fuel k, processSpecialEmojiFuel cexBoardC9 ora fuel 0 0 k = none ∧
      processSpecialEmojiFuel cexBoardC9 ora fuel 0 1 k = none := by
  intro fuel
  induction fuel with
  | zero => intro k; exact ⟨rfl, rfl⟩
  | succ fuel ih =>
    intro k
    constructor
    · have hchain : chainStep cexBoardC9 (processSpecialEmojiFuel cexBoardC9 ora fuel) 0 0
          (getSpecialEmojiEffect cexBoardC9 0 0 .bomb (ora k).1 (ora k).2) (k + 1) = none := by
        have heff : getSpecialEmojiEffect cexBoardC9 0 0 .bomb (ora k).1 (ora k).2 =
            [⟨0, 0⟩, ⟨0, 1⟩, ⟨1, 0⟩, ⟨1, 1⟩] := rfl
        rw [heff, chainStep, if_neg (by decide), chainStep, if_pos (by decide)]
        dsimp only
        rw [(ih (k + 1)).2]
      have hmain : processSpecialEmojiFuel cexBoardC9 ora (fuel + 1) 0 0 k =
          (match chainStep cexBoardC9 (processSpecialEmojiFuel cexBoardC9 ora fuel) 0 0
              (getSpecialEmojiEffect cexBoardC9 0 0 .bomb (ora k).1 (ora k).2) (k + 1) with
           | none => none
           | some (cs, k1) =>
             some (getSpecialEmojiEffect cexBoardC9 0 0 .bomb (ora k).1 (ora k).2 ++ cs, k1)) :=
        rfl
      rw [hmain, hchain]
    · have hchain : chainStep cexBoardC9 (processSpecialEmojiFuel cexBoardC9 ora fuel) 0 1
          (getSpecialEmojiEffect cexBoardC9 0 1 .bomb (ora k).1 (ora k).2) (k + 1) = none := by
        have heff : getSpecialEmojiEffect cexBoardC9 0 1 .bomb (ora k).1 (ora k).2 =
            [⟨0, 0⟩, ⟨0, 1⟩, ⟨0, 2⟩, ⟨1, 0⟩, ⟨1, 1⟩, ⟨1, 2⟩] := rfl
        rw [heff, chainStep, if_pos (by decide)]
        dsimp only
        rw [(ih (k + 1)).1]
      have hmain : processSpecialEmojiFuel cexBoardC9 ora (fuel + 1) 0 1 k =
          (match chainStep cexBoardC9 (processSpecialEmojiFuel cexBoardC9 ora fuel) 0 1
              (getSpecialEmojiEffect cexBoardC9 0 1 .bomb (ora k).1 (ora k).2) (k + 1) with
           | none => none
           | some (cs, k1) =>
             some (getSpecialEmojiEffect cexBoardC9 0 1 .bomb (ora k).1 (ora k).2 ++ cs, k1)) :=
        rfl
      rw [hmain, hchain]

/-- C9: the chain-reaction activation of `processSpecialEmoji` has no
cycle guard, and on the concrete two-bomb board `cexBoardC9` — where
each bomb's affected set contains the other bomb's position, whatever
the random draws are — the activation started at (0,0) exhausts every
recursion-depth budget: the fueled recursion returns `none` for all fuel
values and all randomness oracles, so the source recursion does not
terminate there. -/
theorem claim_C9_chain_nontermination :
    (∀ coin pick,
      (⟨0, 1⟩ : Pos) ∈ getSpecialEmojiEffect cexBoardC9 0 0 .bomb coin pick ∧
      (⟨0, 0⟩ : Pos) ∈ getSpecialEmojiEffect cexBoardC9 0 1 .bomb coin pick) ∧
    isSpecialEmojiOpt (getEmoji cexBoardC9 0 0) = true ∧
    isSpecialEmojiOpt (getEmoji cexBoardC9 0 1) = true ∧
    (∀ (ora : Nat → Bool × Nat) fuel k,
      processSpecialEmojiFuel cexBoardC9 ora fuel 0 0 k = none) := by
  refine ⟨?_, by decide, by decide, ?_⟩
  · intro coin pick
    constructor
    · have h : getSpecialEmojiEffect cexBoardC9 0 0 .bomb coin pick =
          [⟨0, 0⟩, ⟨0, 1⟩, ⟨1, 0⟩, ⟨1, 1⟩] := rfl
      rw [h]
      decide
    · have h : getSpecialEmojiEffect cexBoardC9 0 1 .bomb coin pick =
          [⟨0, 0⟩, ⟨0, 1⟩, ⟨0, 2⟩, ⟨1, 0⟩, ⟨1, 1⟩, ⟨1, 2⟩] := rfl
      rw [h]
      decide
  · intro ora fuel k
    exact (processSpecialC9_aux ora fuel k).1
